import Mathlib

/-!
# cfilterv2hashes: the batch fetch loop and the output writer

A shallow embedding of `main` of `src/main.go` from the point where the RPC
client is connected (line 102) to the end: the tip check, the batch loop that
fetches committed filters in windows of 4000 heights, the writer that formats
every filter and keeps the running hash and statistics, and the final report.

Machine integers are mathematical integers with the wrap-around written out
(`int64`, `uint64`, `uint16`).  Standard output is the list of bytes written,
the log is a list of structured lines, and the RPC calls made are recorded in
call order.  The scheduler's choice (the order in which the tasks of a window
complete) is an explicit argument.
-/

namespace CFilterV2Hashes

/-! ## Machine integers -/

/-- A byte of a Go `[]byte`. -/
abbrev Byte := UInt8

/-- The value of an integer converted to Go's `int64` (two's complement). -/
def int64 (x : Int) : Int := (x + 2 ^ 63) % 2 ^ 64 - 2 ^ 63

/-- The value of an integer converted to Go's `uint64`. -/
def uint64 (x : Int) : Nat := (x % 2 ^ 64).toNat

/-- The value of an integer converted to Go's `uint16`. -/
def uint16 (x : Int) : Nat := (x % 2 ^ 16).toNat

/-- The two bytes `binary.BigEndian.PutUint16` stores for `v`: `byte(v >> 8)`
then `byte(v)`. -/
def PutUint16 (v : Nat) : List Byte := [UInt8.ofNat (v / 256), UInt8.ofNat v]

/-! ## Data model -/

/-- The fields of `config` that `main` reads after the connection is made.
`TargetHeight` is a `uint64`. -/
structure config where
  TargetHeight : Nat
  TestNet : Bool
  Progress : Bool
  Hashes : Bool
  Binary : Bool
deriving DecidableEq, Repr

/-- A block hash (`chainhash.Hash`), read as the number its 32 bytes encode. -/
abbrev BlockHash := Nat

/-- What `main` uses of a `*gcs.FilterV2`: the payload `cf.Bytes()` and the
text `cf.Hash().String()`. -/
structure FilterV2 where
  Bytes : List Byte
  Hash : String
deriving DecidableEq, Repr

/-- The three queries `main` sends through the RPC client.  `GetBlockCount`
and the heights are `int64` values. -/
structure Client where
  GetBlockCount : Except String Int
  GetBlockHash : Int → Except String BlockHash
  GetCFilterV2 : BlockHash → Except String FilterV2

/-- An RPC call, as recorded in the call trace. -/
inductive RpcCall where
  | GetBlockCount
  | GetBlockHash (height : Int)
  | GetCFilterV2 (bh : BlockHash)
  | Shutdown
deriving DecidableEq, Repr

/-- A line of the log (standard error), kept as its arguments; the floating
point rendering of the total size is left to the reader of the line. -/
inductive LogLine where
  | generating (targetHeight : Nat) (network : String)
  | generated (height : Int)
  | hashOfRawData (digest : List Byte)
  | totalSize (bytes : Int)
  | avgSize (bytes : Int)
  | maxSize (bytes : Int)
deriving DecidableEq, Repr

/-- The mutable state of `main` besides the loop variables: the two running
statistics, the bytes written to the hasher so far, standard output, the log,
the RPC calls made, and the filters the writer has consumed with the height
`h+i` it computed for each. -/
structure State where
  totalCFilterSize : Int
  maxCFilterSize : Int
  hasher : List Byte
  out : List Byte
  log : List LogLine
  calls : List RpcCall
  consumed : List (Int × FilterV2)
deriving DecidableEq, Repr

/-- The ways `main` stops other than by returning. -/
inductive Halt where
  | exit1
  | fatal (err : String)
  | fatalTarget (targetHeight : Nat) (blockCount : Int)
  | panic (msg : String)
deriving DecidableEq, Repr

/-- The completion order of the tasks of each window: for the window starting
at `h` with `n` tasks, a permutation of the task indices `0, ..., n-1`. -/
abbrev Schedule := Int → (n : Nat) → {l : List Nat // l.Perm (List.range n)}

/-- The schedule in which tasks complete in launch order. -/
def Schedule.inOrder : Schedule := fun _ n => ⟨List.range n, List.Perm.refl _⟩

/-- The schedule in which tasks complete in reverse launch order. -/
def Schedule.reversed : Schedule := fun _ n => ⟨(List.range n).reverse, List.reverse_perm _⟩

/-! ## The batch loop (lines 144-208) -/

/-- The `for h := int64(0); h <= target; h += step` loop with its clamp
(lines 145-152), over an arbitrary loop body.  `fuel` bounds the number of
windows; `none` means the bound was reached with the loop still running. -/
def batchLoop {α σ ε : Type} (body : Int → Int → List α → σ → Except ε (List α × σ))
    (target : Int) : Nat → Int → Int → List α → σ → Option (Except ε (List α × σ))
  | fuel, h, step, cfilters, s =>
    if h ≤ target then
      match fuel with
      | 0 => none
      | fuel + 1 =>
        let step1 := if int64 (h + step) > target then int64 (target - h + 1) else step
        let cfilters1 := if int64 (h + step) > target then cfilters.take step1.toNat else cfilters
        match body h step1 cfilters1 s with
        | .error e => some (.error e)
        | .ok (cfilters2, s2) => batchLoop body target fuel (int64 (h + step1)) step1 cfilters2 s2
    else some (.ok (cfilters, s))

/-- What the batch loop hands to its body for one window: the start height
`h`, the width `step`, and the number of slots of the buffer. -/
structure WindowRec where
  h : Int
  step : Int
  slots : Nat
deriving DecidableEq, Repr

/-- A loop body that fetches nothing and records the window it is given. -/
def recordWindow (h step : Int) (cfilters : List Unit) (ws : List WindowRec) :
    Except Unit (List Unit × List WindowRec) :=
  .ok (cfilters, ws ++ [⟨h, step, cfilters.length⟩])

/-- One task of the error group (lines 158-170): the hash lookup for height
`h+i`, then the filter lookup, then the store into slot `i`. -/
def task (client : Client) (h : Int) (i : Nat) (cfilters : List (Option FilterV2))
    (calls : List RpcCall) : List (Option FilterV2) × List RpcCall × Option String :=
  match client.GetBlockHash (int64 (h + i)) with
  | .error err => (cfilters, calls ++ [.GetBlockHash (int64 (h + i))], some err)
  | .ok bh =>
    match client.GetCFilterV2 bh with
    | .error err =>
      (cfilters, calls ++ [.GetBlockHash (int64 (h + i)), .GetCFilterV2 bh], some err)
    | .ok f =>
      (cfilters.set i (some f), calls ++ [.GetBlockHash (int64 (h + i)), .GetCFilterV2 bh], none)

/-- The completion of task `i` as the group sees it: the task's effects, and
the group's error, which stays the first one returned. -/
def complete (client : Client) (h : Int)
    (acc : List (Option FilterV2) × List RpcCall × Option String) (i : Nat) :
    List (Option FilterV2) × List RpcCall × Option String :=
  let r := task client h i acc.1 acc.2.1
  (r.1, r.2.1, if acc.2.2.isSome then acc.2.2 else r.2.2)

/-- The error group of a window (lines 155-172): every task runs, in the
completion order `order`, and `Wait` returns the first error. -/
def errgroup (client : Client) (h : Int) (order : List Nat)
    (cfilters : List (Option FilterV2)) (calls : List RpcCall) :
    List (Option FilterV2) × List RpcCall × Option String :=
  order.foldl (complete client h) (cfilters, calls, none)

/-- The body of the writer loop for one filter (lines 181-206). -/
def writeFilter (opts : config) (h : Int) (i : Nat) (cf : FilterV2) (s : State) : State :=
  let out1 := if opts.Hashes then s.out ++ cf.Hash.toUTF8.toList else s.out
  let lenCf : Int := cf.Bytes.length
  let out2 := if opts.Binary then out1 ++ PutUint16 (uint16 lenCf) ++ cf.Bytes else out1
  { totalCFilterSize := int64 (s.totalCFilterSize + lenCf)
    maxCFilterSize := if lenCf > s.maxCFilterSize then lenCf else s.maxCFilterSize
    hasher := s.hasher ++ cf.Bytes
    out := out2
    log :=
      if opts.Progress && (int64 (h + i)).tmod 10000 == 0 then
        s.log ++ [.generated (int64 (h + i))]
      else s.log
    calls := s.calls
    consumed := s.consumed ++ [(int64 (h + i), cf)] }

/-- The writer loop `for i, cf := range cfilters` (lines 180-207), from index
`i` on.  A slot that still holds the nil pointer makes the method call
panic. -/
def writeFilters (opts : config) (h : Int) :
    Nat → List (Option FilterV2) → State → Except (Halt × State) State
  | _, [], s => .ok s
  | _, none :: _, s => .error (.panic "nil pointer dereference", s)
  | i, some cf :: rest, s => writeFilters opts h (i + 1) rest (writeFilter opts h i cf s)

/-- The body of the batch loop (lines 154-207): the error group, the fatal
exit on its error, then the writer loop. -/
def window (client : Client) (sched : Schedule) (opts : config) (h step : Int)
    (cfilters : List (Option FilterV2)) (s : State) :
    Except (Halt × State) (List (Option FilterV2) × State) :=
  let r := errgroup client h (sched h step.toNat).1 cfilters s.calls
  match r.2.2 with
  | some err => .error (.fatal err, { s with calls := r.2.1 })
  | none =>
    match writeFilters opts h 0 r.1 { s with calls := r.2.1 } with
    | .error e => .error e
    | .ok s1 => .ok (r.1, s1)

/-- The batch loop of `main` (lines 123-124 and 144-208): windows of 4000
heights from height 0, over a buffer of 4000 nil slots. -/
def fetchLoop (client : Client) (sched : Schedule) (opts : config) (target : Int)
    (fuel : Nat) (s : State) : Option (Except (Halt × State) (List (Option FilterV2) × State)) :=
  batchLoop (window client sched opts) target fuel 0 4000 (List.replicate 4000 none) s

/-! ## The whole of `main` after the connection -/

/-- The bytes of a text written to standard output. -/
def text (s : String) : List Byte := s.toUTF8.toList

/-- The preamble of hashes mode (lines 138-140). -/
def preamble (network : String) : List Byte :=
  text "// Autogenerated by github.com/matheusd/cfiltersv2hashes\n\n" ++
    text "package validate\n\n" ++
    text ("const cfilterv2RawHashes_" ++ network ++ " string = \"")

/-- The final report (lines 214-222).  The division `totalCFilterSize/target`
is Go's `int64` division: it panics when `target` is zero and truncates
towards zero otherwise. -/
def report (blake256 : List Byte → List Byte) (target : Int) (s : State) :
    Except (Halt × State) State :=
  let s1 := { s with
    log := s.log ++ [.hashOfRawData (blake256 s.hasher), .totalSize s.totalCFilterSize] }
  if target = 0 then .error (.panic "integer divide by zero", s1)
  else
    .ok { s1 with
      log := s1.log ++
        [.avgSize (int64 (Int.tdiv s.totalCFilterSize target)), .maxSize s.maxCFilterSize] }

/-- The state `main` starts from. -/
def State.init : State :=
  { totalCFilterSize := 0, maxCFilterSize := 0, hasher := [], out := [], log := [],
    calls := [], consumed := [] }

/-- The end of `main` (lines 210-223): the closing quote of hashes mode, the
report when progress is on, and the shutdown of the client. -/
def finish (blake256 : List Byte → List Byte) (opts : config) (target : Int) (s3 : State) :
    Except (Halt × State) State :=
  let s4 := if opts.Hashes then { s3 with out := s3.out ++ text "\"\n" } else s3
  match (if opts.Progress then report blake256 target s4 else .ok s4) with
  | .error e => .error e
  | .ok s6 => .ok { s6 with calls := s6.calls ++ [.Shutdown] }

/-- The state in which `main` enters the batch loop (lines 130-142): the block
count has been queried, the first progress line logged and the preamble of
hashes mode written. -/
def start (opts : config) (targetHeight : Nat) : State :=
  let s0 := { State.init with calls := [.GetBlockCount] }
  let network := if opts.TestNet then "testnet3" else "mainnet"
  let s1 := if opts.Progress then
    { s0 with log := s0.log ++ [.generating targetHeight network] } else s0
  if opts.Hashes then { s1 with out := s1.out ++ preamble network } else s1

/-- The function `main` from the mode check of line 80 on, given a connected
client (lines 80-83 and 102-223).  `blake256` is the digest of the bytes
written to the incremental hasher; `fuel` bounds the number of windows. -/
def main (blake256 : List Byte → List Byte) (client : Client) (sched : Schedule)
    (opts : config) (fuel : Nat) : Option (Except (Halt × State) State) :=
  if opts.Hashes && opts.Binary then
    some (.error (.exit1,
      { State.init with out := text "Only specify one of --hashes and --binary\n" }))
  else
    match client.GetBlockCount with
    | .error err => some (.error (.fatal err, { State.init with calls := [.GetBlockCount] }))
    | .ok blockCount =>
      if blockCount < int64 opts.TargetHeight then
        some (.error (.fatalTarget opts.TargetHeight blockCount,
          { State.init with calls := [.GetBlockCount] }))
      else
        let targetHeight := if opts.TargetHeight = 0 then uint64 blockCount else opts.TargetHeight
        let target := int64 targetHeight
        match fetchLoop client sched opts target fuel (start opts targetHeight) with
        | none => none
        | some (.error e) => some (.error e)
        | some (.ok r) => some (finish blake256 opts target r.2)

/-! ## The reader of the binary stream -/

/-- The decoder the specification defines for binary mode: read a 2-byte
big-endian length, then that many bytes, until the stream ends; `none` when the
stream ends inside a record.  It follows the specification's words (the
repository has no reader). -/
def specDecode : List Byte → Option (List (List Byte))
  | [] => some []
  | [_] => none
  | b0 :: b1 :: rest =>
    let n := b0.toNat * 256 + b1.toNat
    if rest.length < n then none
    else (specDecode (rest.drop n)).map (fun ps => rest.take n :: ps)
termination_by bs => bs.length
decreasing_by simp_wf; omega

/-! ## Auxiliary definitions for the proofs -/

/-- The windows the batch loop visits from height `h` on, `n` of them, as
pairs of start height and width. -/
def windows (target : Int) : Int → Nat → List (Int × Int)
  | _, 0 => []
  | h, n + 1 => (h, min 4000 (target - h + 1)) :: windows target (h + 4000) n

/-- The number of windows between `h` and `target`. -/
def windowCount (target h : Int) : Nat := ((target - h + 4000) / 4000).toNat

/-- A loop body run over a list of windows, stopping at the first error. -/
def runWindows {α σ ε : Type} (body : Int → Int → List α → σ → Except ε (List α × σ)) :
    List (Int × Int) → List α → σ → Except ε (List α × σ)
  | [], cfilters, s => .ok (cfilters, s)
  | w :: ws, cfilters, s =>
    match body w.1 w.2 (cfilters.take w.2.toNat) s with
    | .error e => .error e
    | .ok r => runWindows body ws r.1 r.2

/-- The outcome of the two lookups of a task for the height `x`. -/
def fetchFilter (client : Client) (x : Int) : Except String FilterV2 :=
  match client.GetBlockHash x with
  | .error err => .error err
  | .ok bh => client.GetCFilterV2 bh

/-- The call `c` is one of the lookups of the task for the height `x`. -/
def taskCall (client : Client) (x : Int) (c : RpcCall) : Prop :=
  c = .GetBlockHash x ∨ ∃ bh, client.GetBlockHash x = .ok bh ∧ c = .GetCFilterV2 bh

/-- The `n` heights from `h` on, each with its filter. -/
def served (F : Int → FilterV2) (h : Int) (n : Nat) : List (Int × FilterV2) :=
  (List.range n).map (fun j : Nat => (h + (j : Int), F (h + (j : Int))))

/-- The writer applied to a list of filters, each with its height, in list
order. -/
def writeRun (opts : config) (l : List (Int × FilterV2)) (s : State) : State :=
  l.foldl (fun s p => writeFilter opts p.1 0 p.2 s) s

/-- The bytes the writer sends to standard output for one filter. -/
def record (opts : config) (cf : FilterV2) : List Byte :=
  (if opts.Hashes then cf.Hash.toUTF8.toList else []) ++
    (if opts.Binary then PutUint16 (uint16 cf.Bytes.length) ++ cf.Bytes else [])

/-! ## Concrete daemons, for the runs at concrete inputs -/

/-- A daemon whose chain has the blocks `0, ..., tip`, the block at height `x`
having hash `x` and filter `filterAt x`. -/
def daemon (tip : Int) (filterAt : Int → FilterV2) : Client :=
  { GetBlockCount := .ok tip
    GetBlockHash := fun x =>
      if 0 ≤ x ∧ x ≤ tip then .ok x.toNat else .error "block number out of range"
    GetCFilterV2 := fun bh => .ok (filterAt bh) }

/-- A filter for every height, used for concrete runs: `x mod 5` bytes. -/
def sampleFilter (x : Int) : FilterV2 := ⟨List.replicate (x.toNat % 5) 7, "00"⟩

/-- A daemon like `daemon tip filterAt` whose filter lookup fails for the
block of height `bad`. -/
def faulty (tip : Int) (filterAt : Int → FilterV2) (bad : Int) : Client :=
  { GetBlockCount := .ok tip
    GetBlockHash := fun x =>
      if 0 ≤ x ∧ x ≤ tip then .ok x.toNat else .error "block number out of range"
    GetCFilterV2 := fun bh =>
      if (bh : Int) = bad then .error "rpc failure" else .ok (filterAt bh) }

/-- A daemon whose chain has one block per payload of `ps`, in order. -/
def serving (ps : List (List Byte)) : Client :=
  daemon ((ps.length : Int) - 1) (fun x => ⟨ps.getD x.toNat [], ""⟩)

/-! ## Theorems -/

theorem int64_eq_self {x : Int} (h1 : -2 ^ 63 ≤ x) (h2 : x < 2 ^ 63) : int64 x = x := by
  unfold int64; omega

theorem batchLoop_done {α σ ε : Type} (body : Int → Int → List α → σ → Except ε (List α × σ))
    (target : Int) (fuel : Nat) (h step : Int) (cf : List α) (s : σ) (hgt : target < h) :
    batchLoop body target fuel h step cf s = some (.ok (cf, s)) := by
  unfold batchLoop
  simp [not_le.mpr hgt]

theorem batchLoop_full {α σ ε : Type} (body : Int → Int → List α → σ → Except ε (List α × σ))
    (target : Int) (fuel : Nat) (h step : Int) (cf : List α) (s : σ)
    (h0 : -2 ^ 63 ≤ h + step) (h1 : h + step < 2 ^ 63) (hle : h + step ≤ target) (hh : h ≤ target) :
    batchLoop body target (fuel + 1) h step cf s =
      match body h step cf s with
      | .error e => some (.error e)
      | .ok r => batchLoop body target fuel (h + step) step r.1 r.2 := by
  rw [batchLoop]
  simp only [hh, if_true, int64_eq_self h0 h1, gt_iff_lt, not_lt.mpr hle, if_false]
  cases body h step cf s <;> rfl

theorem batchLoop_last {α σ ε : Type} (body : Int → Int → List α → σ → Except ε (List α × σ))
    (target : Int) (fuel : Nat) (h step : Int) (cf : List α) (s : σ)
    (h0 : -2 ^ 63 ≤ h) (h1 : h + step < 2 ^ 63) (h2 : target < 2 ^ 63 - 1)
    (hs : step < 2 ^ 63)
    (hgt : target < h + step) (hh : h ≤ target) :
    batchLoop body target (fuel + 1) h step cf s =
      match body h (target - h + 1) (cf.take (target - h + 1).toNat) s with
      | .error e => some (.error e)
      | .ok r => some (.ok r) := by
  have e1 : int64 (h + step) = h + step := int64_eq_self (by omega) h1
  have e2 : int64 (target - h + 1) = target - h + 1 := int64_eq_self (by omega) (by omega)
  rw [batchLoop]
  simp only [hh, if_true, e1, e2, gt_iff_lt, hgt]
  cases hb : body h (target - h + 1) (cf.take (target - h + 1).toNat) s with
  | error e => rfl
  | ok r =>
    obtain ⟨cf2, s2⟩ := r
    have e3 : int64 (h + (target - h + 1)) = target + 1 := by
      rw [int64_eq_self (by omega) (by omega)]; omega
    simp only [e3]
    exact batchLoop_done body target fuel (target + 1) _ cf2 s2 (by omega)

theorem batchLoop_eq_runWindows {α σ ε : Type}
    (body : Int → Int → List α → σ → Except ε (List α × σ))
    (hlen : ∀ h step cf s r, body h step cf s = .ok r → r.1.length = cf.length)
    (target : Int) (ht : target + 4000 < 2 ^ 63) :
    ∀ (fuel : Nat) (h : Int) (cf : List α) (s : σ), 0 ≤ h → h ≤ target + 1 →
      cf.length = 4000 → windowCount target h ≤ fuel →
      batchLoop body target fuel h 4000 cf s =
        some (runWindows body (windows target h (windowCount target h)) cf s) := by
  intro fuel
  induction fuel with
  | zero =>
    intro h cf s h0 h1 _ hf
    have : h = target + 1 := by
      unfold windowCount at hf; omega
    subst this
    have hc : windowCount target (target + 1) = 0 := by unfold windowCount; omega
    rw [hc, batchLoop_done _ _ _ _ _ _ _ (by omega)]
    rfl
  | succ fuel ih =>
    intro h cf s h0 h1 hcf hf
    by_cases hdone : target < h
    · have hc : windowCount target h = 0 := by unfold windowCount; omega
      rw [hc, batchLoop_done _ _ _ _ _ _ _ hdone]
      rfl
    · have hh : h ≤ target := by omega
      by_cases hfull : h + 4000 ≤ target
      · have hc : windowCount target h = windowCount target (h + 4000) + 1 := by
          unfold windowCount; omega
        rw [batchLoop_full body target fuel h 4000 cf s (by omega) (by omega) hfull hh, hc]
        have hmin : min 4000 (target - h + 1) = 4000 := by omega
        simp only [windows, runWindows, hmin]
        have htake : cf.take (4000 : Int).toNat = cf := by
          apply List.take_of_length_le; simp [hcf]
        rw [htake]
        cases hb : body h 4000 cf s with
        | error e => rfl
        | ok r =>
          simp only
          exact ih (h + 4000) r.1 r.2 (by omega) (by omega)
            (by rw [hlen _ _ _ _ _ hb, hcf]) (by omega)
      · have hc : windowCount target h = 1 := by unfold windowCount; omega
        rw [batchLoop_last body target fuel h 4000 cf s (by omega) (by omega) (by omega)
          (by omega) (by omega) hh, hc]
        have hmin : min 4000 (target - h + 1) = target - h + 1 := by omega
        simp only [windows, runWindows, hmin]
        cases hb : body h (target - h + 1) (cf.take (target - h + 1).toNat) s with
        | error e => rfl
        | ok r => rfl


theorem windows_eq_map (target : Int) : ∀ (n : Nat) (h : Int),
    windows target h n =
      (List.range n).map (fun k : Nat => (h + 4000 * (k : Int), min 4000 (target - (h + 4000 * (k : Int)) + 1))) := by
  intro n
  induction n with
  | zero => intro h; rfl
  | succ n ih =>
    intro h
    rw [windows, ih, List.range_succ_eq_map, List.map_cons, List.map_map]
    congr 1
    · simp
    · apply List.map_congr_left
      intro k _
      simp only [Function.comp, Nat.succ_eq_add_one, Nat.cast_add, Nat.cast_one]
      have e : h + 4000 + 4000 * (k : Int) = h + 4000 * ((k : Int) + 1) := by ring
      rw [e]

theorem windows_length (target : Int) (n : Nat) (h : Int) : (windows target h n).length = n := by
  rw [windows_eq_map]; simp

theorem runWindows_recordWindow (target : Int) : ∀ (n : Nat) (h : Int) (cf : List Unit)
    (acc : List WindowRec), h ≤ target → n ≤ windowCount target h → cf.length = 4000 →
    ∃ cf2, runWindows recordWindow (windows target h n) cf acc =
      .ok (cf2, acc ++ (windows target h n).map (fun w => ⟨w.1, w.2, w.2.toNat⟩)) := by
  intro n
  induction n with
  | zero => intro h cf acc _ _ _; exact ⟨cf, by simp [windows, runWindows]⟩
  | succ n ih =>
    intro h cf acc hh hn hcf
    simp only [windows, runWindows, recordWindow, List.map_cons]
    have hslots : (cf.take (min 4000 (target - h + 1)).toNat).length
        = (min 4000 (target - h + 1)).toNat := by
      rw [List.length_take, hcf]; omega
    rw [hslots]
    cases n with
    | zero => exact ⟨cf.take (min 4000 (target - h + 1)).toNat, by simp [windows, runWindows]⟩
    | succ m =>
      have hfull : h + 4000 ≤ target := by unfold windowCount at hn; omega
      have hmin : min 4000 (target - h + 1) = 4000 := by omega
      have hc : windowCount target h = windowCount target (h + 4000) + 1 := by
        unfold windowCount; omega
      obtain ⟨cf2, h2⟩ := ih (h + 4000)
        (cf.take (min 4000 (target - h + 1)).toNat)
        (acc ++ [⟨h, min 4000 (target - h + 1), (min 4000 (target - h + 1)).toNat⟩])
        (by omega) (by omega) (by rw [hslots, hmin]; rfl)
      exact ⟨cf2, by rw [h2]; simp⟩


/-- C1: for every target height `T ≥ 0` with `T + 4000` in the `int64` range,
the batch loop (given enough fuel) runs exactly `ceil((T+1)/4000)` windows;
window `k` starts at `4000*k`, covers the heights up to `min (4000*k+3999) T`
and has one buffer slot per height; the windows are consecutive, start at 0,
end at `T`, and every height of `[0, T]` lies in exactly one of them. -/
theorem batchLoop_windows_partition (T : Int) (fuel : Nat) (h0 : 0 ≤ T)
    (h1 : T + 4000 < 2 ^ 63) (hf : ((T + 4000) / 4000).toNat ≤ fuel) :
    ∃ buf ws,
      batchLoop recordWindow T fuel 0 4000 (List.replicate 4000 ()) [] = some (.ok (buf, ws)) ∧
      ws = (List.range ((T + 4000) / 4000).toNat).map (fun k : Nat =>
        (⟨4000 * k, min 4000 (T + 1 - 4000 * k), (min 4000 (T + 1 - 4000 * k)).toNat⟩ :
          WindowRec)) ∧
      (T + 1 ≤ 4000 * (ws.length : Int) ∧ 4000 * (ws.length : Int) < T + 1 + 4000) ∧
      (∀ (k : Nat) (hk : k < ws.length),
        ws[k].h = 4000 * (k : Int) ∧ ws[k].h + ws[k].step - 1 = min (4000 * (k : Int) + 3999) T ∧
        1 ≤ ws[k].step ∧ ws[k].slots = ws[k].step.toNat) ∧
      (∀ (hk : 0 < ws.length), ws[0].h = 0) ∧
      (∀ (k : Nat) (hk : k + 1 < ws.length), ws[k + 1].h = ws[k].h + ws[k].step) ∧
      (∀ (k : Nat) (hk : k < ws.length), k + 1 = ws.length → ws[k].h + ws[k].step - 1 = T) ∧
      (∀ x : Int, 0 ≤ x → x ≤ T →
        ∃! k : Nat, ∃ hk : k < ws.length, ws[k].h ≤ x ∧ x ≤ ws[k].h + ws[k].step - 1) := by
  have hcnt : windowCount T 0 = ((T + 4000) / 4000).toNat := by unfold windowCount; simp
  have hloop := batchLoop_eq_runWindows recordWindow
    (fun h step cf s r hr => by
      simp only [recordWindow, Except.ok.injEq] at hr
      rw [← hr])
    T h1 fuel 0 (List.replicate 4000 ()) [] (le_refl 0) (by omega) (List.length_replicate _ _)
    (by rw [hcnt]; exact hf)
  obtain ⟨buf, hrun⟩ := runWindows_recordWindow T (windowCount T 0) 0 (List.replicate 4000 ()) []
    h0 (le_refl _) (List.length_replicate _ _)
  rw [hrun] at hloop
  rw [windows_eq_map, hcnt] at hloop
  refine ⟨buf, _, hloop, ?_, ?_⟩
  · simp only [List.nil_append, List.map_map]
    apply List.map_congr_left
    intro k _
    simp only [Function.comp, zero_add]
    have e : T - 4000 * (k : Int) + 1 = T + 1 - 4000 * (k : Int) := by ring
    rw [e]
  · simp only [List.nil_append, List.map_map, List.length_map, List.length_range,
      List.getElem_map, List.getElem_range, Function.comp, zero_add]
    refine ⟨by omega, ?_, ?_, ?_, ?_, ?_⟩
    · intro k hk
      exact ⟨trivial, by omega, by omega, trivial⟩
    · intro _; simp
    · intro k hk; push_cast; omega
    · intro k hk hlast; omega
    · intro x hx0 hxT
      refine ⟨(x / 4000).toNat, ⟨by omega, by omega, by omega⟩, ?_⟩
      rintro k ⟨hk, hlo, hhi⟩
      omega

/-- C1 at concrete targets: `T = 3999` gives the single window `[0, 3999]`,
and `T = 4000` gives `[0, 3999]` then `[4000, 4000]`. -/
theorem batchLoop_windows_partition_witness :
    (∃ buf, batchLoop recordWindow 3999 1 0 4000 (List.replicate 4000 ()) [] =
      some (.ok (buf, [⟨0, 4000, 4000⟩]))) ∧
    (∃ buf, batchLoop recordWindow 4000 2 0 4000 (List.replicate 4000 ()) [] =
      some (.ok (buf, [⟨0, 4000, 4000⟩, ⟨4000, 1, 1⟩]))) := by
  constructor
  · obtain ⟨buf, ws, hrun, hws, _⟩ :=
      batchLoop_windows_partition 3999 1 (by decide) (by decide) (by decide)
    have e : ws = [⟨0, 4000, 4000⟩] := by rw [hws]; decide
    exact ⟨buf, by rw [hrun, e]⟩
  · obtain ⟨buf, ws, hrun, hws, _⟩ :=
      batchLoop_windows_partition 4000 2 (by decide) (by decide) (by decide)
    have e : ws = [⟨0, 4000, 4000⟩, ⟨4000, 1, 1⟩] := by rw [hws]; decide
    exact ⟨buf, by rw [hrun, e]⟩

/-! ### The tasks of a window -/

theorem task_length (client : Client) (h : Int) (i : Nat) (cf : List (Option FilterV2))
    (calls : List RpcCall) : (task client h i cf calls).1.length = cf.length := by
  unfold task
  split
  · rfl
  · split
    · rfl
    · simp

theorem task_ok (client : Client) (h : Int) (i : Nat) (cf : List (Option FilterV2))
    (calls : List RpcCall) (f : FilterV2) (hf : fetchFilter client (int64 (h + i)) = .ok f) :
    (task client h i cf calls).1 = cf.set i (some f) ∧ (task client h i cf calls).2.2 = none := by
  unfold fetchFilter at hf
  unfold task
  split at hf
  · cases hf
  · rename_i bh hbh
    simp [hbh, hf]

theorem task_err (client : Client) (h : Int) (i : Nat) (cf : List (Option FilterV2))
    (calls : List RpcCall) (e : String) (hf : fetchFilter client (int64 (h + i)) = .error e) :
    (task client h i cf calls).2.2 = some e := by
  unfold fetchFilter at hf
  unfold task
  split at hf
  · rename_i err herr
    simp only [herr]
    cases hf; rfl
  · rename_i bh hbh
    simp only [hbh, hf]

theorem task_calls (client : Client) (h : Int) (i : Nat) (cf : List (Option FilterV2))
    (calls : List RpcCall) :
    ∀ c ∈ (task client h i cf calls).2.1, c ∈ calls ∨ taskCall client (int64 (h + i)) c := by
  intro c hc
  unfold task at hc
  unfold taskCall
  split at hc
  · simp only [List.mem_append, List.mem_singleton] at hc
    rcases hc with hc | hc
    · exact Or.inl hc
    · exact Or.inr (Or.inl hc)
  · rename_i bh hbh
    have hc2 : c ∈ calls ++ [RpcCall.GetBlockHash (int64 (h + i)), RpcCall.GetCFilterV2 bh] := by
      split at hc <;> exact hc
    simp only [List.mem_append, List.mem_cons, List.mem_singleton, List.not_mem_nil,
      or_false] at hc2
    rcases hc2 with hc2 | hc2 | hc2
    · exact Or.inl hc2
    · exact Or.inr (Or.inl hc2)
    · exact Or.inr (Or.inr ⟨bh, hbh, hc2⟩)

theorem foldl_complete_length (client : Client) (h : Int) : ∀ (order : List Nat)
    (acc : List (Option FilterV2) × List RpcCall × Option String),
    (order.foldl (complete client h) acc).1.length = acc.1.length := by
  intro order
  induction order with
  | nil => intro acc; rfl
  | cons i rest ih =>
    intro acc
    rw [List.foldl_cons, ih]
    exact task_length client h i acc.1 acc.2.1

theorem foldl_complete_calls (client : Client) (h : Int) : ∀ (order : List Nat)
    (acc : List (Option FilterV2) × List RpcCall × Option String),
    ∀ c ∈ (order.foldl (complete client h) acc).2.1,
      c ∈ acc.2.1 ∨ ∃ i ∈ order, taskCall client (int64 (h + i)) c := by
  intro order
  induction order with
  | nil => intro acc c hc; exact Or.inl hc
  | cons i rest ih =>
    intro acc c hc
    rw [List.foldl_cons] at hc
    rcases ih _ c hc with h1 | ⟨j, hj, hcj⟩
    · rcases task_calls client h i acc.1 acc.2.1 c h1 with h2 | h2
      · exact Or.inl h2
      · exact Or.inr ⟨i, List.mem_cons_self _ _, h2⟩
    · exact Or.inr ⟨j, List.mem_cons_of_mem _ hj, hcj⟩

theorem foldl_complete_isSome (client : Client) (h : Int) : ∀ (order : List Nat)
    (acc : List (Option FilterV2) × List RpcCall × Option String),
    acc.2.2.isSome → (order.foldl (complete client h) acc).2.2.isSome := by
  intro order
  induction order with
  | nil => intro acc ha; exact ha
  | cons i rest ih =>
    intro acc ha
    rw [List.foldl_cons]
    apply ih
    simp only [complete, ha, if_true]

theorem foldl_complete_err (client : Client) (h : Int) : ∀ (order : List Nat)
    (acc : List (Option FilterV2) × List RpcCall × Option String),
    (∃ i ∈ order, ∃ e, fetchFilter client (int64 (h + i)) = .error e) →
    (order.foldl (complete client h) acc).2.2.isSome := by
  intro order
  induction order with
  | nil => intro acc ⟨i, hi, _⟩; cases hi
  | cons j rest ih =>
    intro acc ⟨i, hi, e, he⟩
    rw [List.foldl_cons]
    rcases List.mem_cons.mp hi with rfl | hmem
    · apply foldl_complete_isSome
      simp only [complete]
      split
      · assumption
      · rw [task_err client h i acc.1 acc.2.1 e he]; rfl
    · exact ih _ ⟨i, hmem, e, he⟩

theorem foldl_complete_ok (client : Client) (h : Int) (G : Nat → FilterV2) :
    ∀ (order : List Nat) (acc : List (Option FilterV2) × List RpcCall × Option String),
    (∀ i ∈ order, fetchFilter client (int64 (h + i)) = .ok (G i)) →
    (order.foldl (complete client h) acc).2.2 = acc.2.2 ∧
    ∀ j : Nat, (order.foldl (complete client h) acc).1[j]? =
      if j ∈ order ∧ j < acc.1.length then some (some (G j)) else acc.1[j]? := by
  intro order
  induction order with
  | nil => intro acc _; simp
  | cons i rest ih =>
    intro acc hok
    rw [List.foldl_cons]
    obtain ⟨h1, h2⟩ := ih (complete client h acc i)
      (fun j hj => hok j (List.mem_cons_of_mem _ hj))
    obtain ⟨t1, t2⟩ := task_ok client h i acc.1 acc.2.1 (G i) (hok i (List.mem_cons_self _ _))
    have hlen : (complete client h acc i).1.length = acc.1.length :=
      task_length client h i acc.1 acc.2.1
    have hfst : (complete client h acc i).1 = acc.1.set i (some (G i)) := t1
    constructor
    · rw [h1]
      simp only [complete, t2]
      cases acc.2.2 <;> rfl
    · intro j
      rw [h2 j, hlen, hfst, List.getElem?_set]
      by_cases hlt : j < acc.1.length
      · by_cases hj : j ∈ rest
        · simp [hj, hlt]
        · by_cases hij : i = j
          · subst hij; simp [hj, hlt]
          · have hji : ¬ j = i := fun e => hij e.symm
            simp [hj, hij, hji, hlt]
      · have hnone : acc.1[j]? = none := List.getElem?_eq_none (by omega)
        by_cases hij : i = j
        · subst hij; simp [hlt, hnone]
        · have hji : ¬ j = i := fun e => hij e.symm
          simp [hij, hji, hlt, hnone]

theorem errgroup_ok (client : Client) (h : Int) (G : Nat → FilterV2) (n : Nat)
    (order : List Nat) (hperm : order.Perm (List.range n))
    (cf : List (Option FilterV2)) (calls : List RpcCall) (hcf : cf.length = n)
    (hok : ∀ i, i < n → fetchFilter client (int64 (h + i)) = .ok (G i)) :
    (errgroup client h order cf calls).1 = (List.range n).map (fun j => some (G j)) ∧
    (errgroup client h order cf calls).2.2 = none := by
  unfold errgroup
  obtain ⟨h1, h2⟩ := foldl_complete_ok client h G order (cf, calls, none)
    (fun i hi => hok i (List.mem_range.mp ((hperm.mem_iff).mp hi)))
  refine ⟨?_, h1⟩
  apply List.ext_getElem?
  intro j
  rw [h2 j, List.getElem?_map]
  by_cases hj : j < n
  · have : j ∈ order := (hperm.mem_iff).mpr (List.mem_range.mpr hj)
    simp [this, hcf, hj, List.getElem?_range hj]
  · have : ¬ j ∈ order := fun hm => hj (List.mem_range.mp ((hperm.mem_iff).mp hm))
    simp only [this, false_and, if_false]
    rw [List.getElem?_eq_none (show cf.length ≤ j by omega),
      List.getElem?_eq_none (show (List.range n).length ≤ j by rw [List.length_range]; omega)]
    rfl

/-! ### The writer -/

theorem writeFilter_shift (opts : config) (h : Int) (i : Nat) (cf : FilterV2) (s : State) :
    writeFilter opts h i cf s = writeFilter opts (h + i) 0 cf s := by
  simp [writeFilter]

theorem writeFilter_calls (opts : config) (h : Int) (i : Nat) (cf : FilterV2) (s : State)
    (c : List RpcCall) :
    writeFilter opts h i cf { s with calls := c } = { writeFilter opts h i cf s with calls := c } := by
  rfl

theorem writeRun_calls (opts : config) : ∀ (l : List (Int × FilterV2)) (s : State)
    (c : List RpcCall),
    writeRun opts l { s with calls := c } = { writeRun opts l s with calls := c } := by
  intro l
  induction l with
  | nil => intro s c; rfl
  | cons p rest ih =>
    intro s c
    simp only [writeRun, List.foldl_cons] at ih ⊢
    rw [writeFilter_calls, ih]

theorem writeRun_append (opts : config) (l1 l2 : List (Int × FilterV2)) (s : State) :
    writeRun opts (l1 ++ l2) s = writeRun opts l2 (writeRun opts l1 s) := by
  simp [writeRun, List.foldl_append]

theorem writeFilters_range' (opts : config) (h : Int) (F : Int → FilterV2) :
    ∀ (n i : Nat) (s : State),
    writeFilters opts h i ((List.range' i n).map (fun j : Nat => some (F (h + (j : Int))))) s =
      .ok (writeRun opts ((List.range' i n).map (fun j : Nat => (h + (j : Int), F (h + (j : Int))))) s) := by
  intro n
  induction n with
  | zero => intro i s; rfl
  | succ n ih =>
    intro i s
    rw [List.range'_succ, List.map_cons, List.map_cons, writeFilters, ih (i + 1)]
    simp only [writeRun, List.foldl_cons]
    rw [writeFilter_shift]

theorem served_add (F : Int → FilterV2) (h : Int) (a b : Nat) :
    served F h (a + b) = served F h a ++ served F (h + a) b := by
  unfold served
  rw [List.range_add, List.map_append, List.map_map]
  congr 1
  apply List.map_congr_left
  intro j _
  simp only [Function.comp, Nat.cast_add, add_assoc]

theorem window_ok (client : Client) (sched : Schedule) (opts : config) (h step : Int)
    (F : Int → FilterV2) (cf : List (Option FilterV2)) (s : State)
    (hcf : cf.length = step.toNat)
    (hok : ∀ i : Nat, i < step.toNat →
      fetchFilter client (int64 (h + i)) = .ok (F (h + (i : Int)))) :
    ∃ c, window client sched opts h step cf s =
        .ok ((List.range step.toNat).map (fun j : Nat => some (F (h + (j : Int)))),
          { writeRun opts (served F h step.toNat) s with calls := c }) ∧
      ∀ call ∈ c, call ∈ s.calls ∨
        ∃ i : Nat, i < step.toNat ∧ taskCall client (int64 (h + i)) call := by
  obtain ⟨e1, e2⟩ := errgroup_ok client h (fun j : Nat => F (h + (j : Int))) step.toNat
    (sched h step.toNat).1 (sched h step.toNat).2 cf s.calls hcf hok
  refine ⟨(errgroup client h (sched h step.toNat).1 cf s.calls).2.1, ?_, ?_⟩
  · have hw := writeFilters_range' opts h F step.toNat 0
      { s with calls := (errgroup client h (sched h step.toNat).1 cf s.calls).2.1 }
    rw [← List.range_eq_range', writeRun_calls] at hw
    unfold window
    simp only [e2, e1, hw]
    rfl
  · intro call hcall
    rcases foldl_complete_calls client h _ (cf, s.calls, none) call hcall with h1 | ⟨i, hi, h2⟩
    · exact Or.inl h1
    · exact Or.inr ⟨i, List.mem_range.mp (((sched h step.toNat).2.mem_iff).mp hi), h2⟩

theorem window_err (client : Client) (sched : Schedule) (opts : config) (h step : Int)
    (cf : List (Option FilterV2)) (s : State)
    (hbad : ∃ i : Nat, i < step.toNat ∧ ∃ e, fetchFilter client (int64 (h + i)) = .error e) :
    ∃ err c, window client sched opts h step cf s = .error (.fatal err, { s with calls := c }) ∧
      ∀ call ∈ c, call ∈ s.calls ∨
        ∃ i : Nat, i < step.toNat ∧ taskCall client (int64 (h + i)) call := by
  obtain ⟨i, hi, e, he⟩ := hbad
  have hsome : (errgroup client h (sched h step.toNat).1 cf s.calls).2.2.isSome :=
    foldl_complete_err client h _ (cf, s.calls, none)
      ⟨i, ((sched h step.toNat).2.mem_iff).mpr (List.mem_range.mpr hi), e, he⟩
  obtain ⟨err, herr⟩ := Option.isSome_iff_exists.mp hsome
  refine ⟨err, (errgroup client h (sched h step.toNat).1 cf s.calls).2.1, ?_, ?_⟩
  · unfold window
    simp only [herr]
  · intro call hcall
    rcases foldl_complete_calls client h _ (cf, s.calls, none) call hcall with h1 | ⟨j, hj, h2⟩
    · exact Or.inl h1
    · exact Or.inr ⟨j, List.mem_range.mp (((sched h step.toNat).2.mem_iff).mp hj), h2⟩

theorem window_length (client : Client) (sched : Schedule) (opts : config) (h step : Int)
    (cf : List (Option FilterV2)) (s : State) (r : List (Option FilterV2) × State)
    (hr : window client sched opts h step cf s = .ok r) : r.1.length = cf.length := by
  have hl : (errgroup client h (sched h step.toNat).1 cf s.calls).1.length = cf.length :=
    foldl_complete_length client h _ _
  cases he : (errgroup client h (sched h step.toNat).1 cf s.calls).2.2 with
  | some err => simp [window, he] at hr
  | none =>
    simp only [window, he] at hr
    split at hr
    · cases hr
    · cases hr
      exact hl

/-! ### Runs of windows -/

theorem runWindows_append {α σ ε : Type} (body : Int → Int → List α → σ → Except ε (List α × σ)) :
    ∀ (ws1 ws2 : List (Int × Int)) (cf : List α) (s : σ),
    runWindows body (ws1 ++ ws2) cf s =
      match runWindows body ws1 cf s with
      | .error e => .error e
      | .ok r => runWindows body ws2 r.1 r.2 := by
  intro ws1
  induction ws1 with
  | nil => intro ws2 cf s; rfl
  | cons w rest ih =>
    intro ws2 cf s
    simp only [List.cons_append, runWindows]
    cases body w.1 w.2 (cf.take w.2.toNat) s with
    | error e => rfl
    | ok r => exact ih ws2 r.1 r.2

theorem windows_add (target : Int) : ∀ (a b : Nat) (h : Int),
    windows target h (a + b) = windows target h a ++ windows target (h + 4000 * (a : Int)) b := by
  intro a
  induction a with
  | zero => intro b h; simp [windows]
  | succ a ih =>
    intro b h
    have e : a + 1 + b = (a + b) + 1 := by omega
    rw [e, windows, windows, ih, List.cons_append]
    have e2 : h + 4000 + 4000 * (a : Int) = h + 4000 * ((a + 1 : Nat) : Int) := by
      push_cast; ring
    rw [e2]

theorem runWindows_window_ok (client : Client) (sched : Schedule) (opts : config)
    (F : Int → FilterV2) (T : Int) (hT : T + 4000 < 2 ^ 63) :
    ∀ (n : Nat) (h : Int) (cf : List (Option FilterV2)) (s : State),
    0 ≤ h → h ≤ T → n ≤ windowCount T h → cf.length = 4000 →
    (∀ x : Int, h ≤ x → x < h + min (4000 * (n : Int)) (T + 1 - h) →
      fetchFilter client x = .ok (F x)) →
    ∃ buf c, runWindows (window client sched opts) (windows T h n) cf s =
        .ok (buf, { writeRun opts (served F h (min (4000 * (n : Int)) (T + 1 - h)).toNat) s
                    with calls := c }) ∧
      ∀ call ∈ c, call ∈ s.calls ∨
        ∃ x : Int, h ≤ x ∧ x < h + min (4000 * (n : Int)) (T + 1 - h) ∧ taskCall client x call := by
  intro n
  induction n with
  | zero =>
    intro h cf s _ hh _ _ _
    refine ⟨cf, s.calls, ?_, fun call hc => Or.inl hc⟩
    have e : (min (4000 * ((0 : Nat) : Int)) (T + 1 - h)).toNat = 0 := by
      simp only [Nat.cast_zero, mul_zero]; omega
    rw [e]
    rfl
  | succ n ih =>
    intro h cf s h0 hh hn hcf hok
    have hst : (min 4000 (T - h + 1)).toNat ≤ 4000 := by omega
    have hst1 : ((min 4000 (T - h + 1)).toNat : Int) = min 4000 (T - h + 1) := by omega
    have hcf1 : (cf.take (min 4000 (T - h + 1)).toNat).length = (min 4000 (T - h + 1)).toNat := by
      rw [List.length_take, hcf]; omega
    obtain ⟨c1, hw, hc1⟩ := window_ok client sched opts h (min 4000 (T - h + 1)) F
      (cf.take (min 4000 (T - h + 1)).toNat) s hcf1
      (fun i hi => by
        rw [int64_eq_self (by omega) (by omega)]
        exact hok _ (by omega) (by push_cast at hn ⊢; omega))
    simp only [windows, runWindows, hw]
    cases n with
    | zero =>
      refine ⟨(List.range (min 4000 (T - h + 1)).toNat).map
        (fun j : Nat => some (F (h + (j : Int)))), c1, ?_, ?_⟩
      · have e : (min (4000 * ((0 + 1 : Nat) : Int)) (T + 1 - h)).toNat
            = (min 4000 (T - h + 1)).toNat := by push_cast; omega
        rw [e]
        rfl
      · intro call hcall
        rcases hc1 call hcall with h1 | ⟨i, hi, h2⟩
        · exact Or.inl h1
        · rw [int64_eq_self (by omega) (by omega)] at h2
          exact Or.inr ⟨h + i, by omega, by push_cast; omega, h2⟩
    | succ m =>
      have hfull : h + 4000 ≤ T := by unfold windowCount at hn; omega
      have hmin : min 4000 (T - h + 1) = 4000 := by omega
      have hc : windowCount T h = windowCount T (h + 4000) + 1 := by
        unfold windowCount; omega
      obtain ⟨buf, c2, hrun, hc2⟩ := ih (h + 4000)
        ((List.range (min 4000 (T - h + 1)).toNat).map (fun j : Nat => some (F (h + (j : Int)))))
        { writeRun opts (served F h (min 4000 (T - h + 1)).toNat) s with calls := c1 }
        (by omega) hfull (by omega) (by rw [hmin]; simp)
        (fun x hx1 hx2 => hok x (by omega) (by push_cast at hx2 ⊢; omega))
      refine ⟨buf, c2, ?_, ?_⟩
      · rw [hrun, writeRun_calls]
        have e : (min (4000 * ((m + 1 + 1 : Nat) : Int)) (T + 1 - h)).toNat
            = (min 4000 (T - h + 1)).toNat
              + (min (4000 * ((m + 1 : Nat) : Int)) (T + 1 - (h + 4000))).toNat := by
          push_cast; omega
        rw [e, served_add, writeRun_append, hst1, hmin]
      · intro call hcall
        rcases hc2 call hcall with h1 | ⟨x, hx1, hx2, h2⟩
        · rcases hc1 call h1 with h3 | ⟨i, hi, h4⟩
          · exact Or.inl h3
          · rw [int64_eq_self (by omega) (by omega)] at h4
            exact Or.inr ⟨h + i, by omega, by push_cast; omega, h4⟩
        · exact Or.inr ⟨x, by omega, by push_cast at hx2 ⊢; omega, h2⟩

/-! ### The whole loop -/

theorem fetchLoop_ok (client : Client) (sched : Schedule) (opts : config) (F : Int → FilterV2)
    (T : Int) (fuel : Nat) (s : State) (h0 : 0 ≤ T) (hT : T + 4000 < 2 ^ 63)
    (hf : ((T + 4000) / 4000).toNat ≤ fuel)
    (hok : ∀ x : Int, 0 ≤ x → x ≤ T → fetchFilter client x = .ok (F x)) :
    ∃ buf c, fetchLoop client sched opts T fuel s =
        some (.ok (buf, { writeRun opts (served F 0 (T + 1).toNat) s with calls := c })) ∧
      ∀ call ∈ c, call ∈ s.calls ∨ ∃ x : Int, 0 ≤ x ∧ x ≤ T ∧ taskCall client x call := by
  have hcnt : windowCount T 0 = ((T + 4000) / 4000).toNat := by unfold windowCount; simp
  have hloop := batchLoop_eq_runWindows (window client sched opts)
    (fun h step cf s r hr => window_length client sched opts h step cf s r hr)
    T hT fuel 0 (List.replicate 4000 none) s (le_refl 0) (by omega) (List.length_replicate _ _)
    (by rw [hcnt]; exact hf)
  have hm : min (4000 * ((windowCount T 0 : Nat) : Int)) (T + 1 - 0) = T + 1 := by
    rw [hcnt]; omega
  obtain ⟨buf, c, hrun, hc⟩ := runWindows_window_ok client sched opts F T hT (windowCount T 0) 0
    (List.replicate 4000 none) s (le_refl 0) h0 (le_refl _) (List.length_replicate _ _)
    (fun x hx1 hx2 => hok x hx1 (by rw [hm] at hx2; omega))
  rw [hm] at hrun hc
  refine ⟨buf, c, ?_, ?_⟩
  · unfold fetchLoop
    rw [hloop, hrun]
  · intro call hcall
    rcases hc call hcall with h1 | ⟨x, hx1, hx2, h2⟩
    · exact Or.inl h1
    · exact Or.inr ⟨x, hx1, by omega, h2⟩

theorem writeRun_consumed (opts : config) : ∀ (l : List (Int × FilterV2)) (s : State),
    (writeRun opts l s).consumed = s.consumed ++ l.map (fun p => (int64 p.1, p.2)) := by
  intro l
  induction l with
  | nil => intro s; simp [writeRun]
  | cons p rest ih =>
    intro s
    simp only [writeRun, List.foldl_cons] at ih ⊢
    rw [ih]
    simp [writeFilter]

theorem writeRun_hasher (opts : config) : ∀ (l : List (Int × FilterV2)) (s : State),
    (writeRun opts l s).hasher = s.hasher ++ (l.map (fun p => p.2.Bytes)).flatten := by
  intro l
  induction l with
  | nil => intro s; simp [writeRun]
  | cons p rest ih =>
    intro s
    simp only [writeRun, List.foldl_cons] at ih ⊢
    rw [ih]
    simp [writeFilter]

theorem writeRun_out (opts : config) : ∀ (l : List (Int × FilterV2)) (s : State),
    (writeRun opts l s).out = s.out ++ (l.map (fun p => record opts p.2)).flatten := by
  intro l
  induction l with
  | nil => intro s; simp [writeRun]
  | cons p rest ih =>
    intro s
    simp only [writeRun, List.foldl_cons] at ih ⊢
    rw [ih]
    simp only [writeFilter, record, List.map_cons, List.flatten_cons, ← List.append_assoc]
    congr 1
    cases opts.Hashes <;> cases opts.Binary <;> simp

theorem writeRun_total (opts : config) : ∀ (l : List (Int × FilterV2)) (s : State),
    0 ≤ s.totalCFilterSize →
    s.totalCFilterSize + (l.map (fun p => (p.2.Bytes.length : Int))).sum < 2 ^ 63 →
    (writeRun opts l s).totalCFilterSize =
      s.totalCFilterSize + (l.map (fun p => (p.2.Bytes.length : Int))).sum := by
  intro l
  induction l with
  | nil => intro s _ _; simp [writeRun]
  | cons p rest ih =>
    intro s h0 hsum
    simp only [List.map_cons, List.sum_cons] at hsum
    have hnn : 0 ≤ (rest.map (fun p => (p.2.Bytes.length : Int))).sum := by
      apply List.sum_nonneg
      intro x hx
      obtain ⟨q, _, rfl⟩ := List.mem_map.mp hx
      exact Int.ofNat_nonneg _
    have hp : 0 ≤ (p.2.Bytes.length : Int) := Int.ofNat_nonneg _
    have e : (writeFilter opts p.1 0 p.2 s).totalCFilterSize
        = s.totalCFilterSize + (p.2.Bytes.length : Int) := by
      simp only [writeFilter]
      exact int64_eq_self (by omega) (by omega)
    simp only [writeRun, List.foldl_cons] at ih ⊢
    rw [ih _ (by rw [e]; omega) (by rw [e]; omega), e]
    simp only [List.map_cons, List.sum_cons]
    ring

theorem writeRun_max (opts : config) : ∀ (l : List (Int × FilterV2)) (s : State),
    s.maxCFilterSize ≤ (writeRun opts l s).maxCFilterSize ∧
    (∀ p ∈ l, (p.2.Bytes.length : Int) ≤ (writeRun opts l s).maxCFilterSize) ∧
    ((writeRun opts l s).maxCFilterSize = s.maxCFilterSize ∨
      ∃ p ∈ l, (writeRun opts l s).maxCFilterSize = (p.2.Bytes.length : Int)) := by
  intro l
  induction l with
  | nil => intro s; simp [writeRun]
  | cons p rest ih =>
    intro s
    simp only [writeRun, List.foldl_cons] at ih ⊢
    obtain ⟨i1, i2, i3⟩ := ih (writeFilter opts p.1 0 p.2 s)
    have e : (writeFilter opts p.1 0 p.2 s).maxCFilterSize
        = if (p.2.Bytes.length : Int) > s.maxCFilterSize then (p.2.Bytes.length : Int)
          else s.maxCFilterSize := rfl
    have e1 : s.maxCFilterSize ≤ (writeFilter opts p.1 0 p.2 s).maxCFilterSize := by
      rw [e]; split <;> omega
    have e2 : (p.2.Bytes.length : Int) ≤ (writeFilter opts p.1 0 p.2 s).maxCFilterSize := by
      rw [e]; split <;> omega
    refine ⟨le_trans e1 i1, ?_, ?_⟩
    · intro q hq
      rcases List.mem_cons.mp hq with rfl | hq
      · exact le_trans e2 i1
      · exact i2 q hq
    · rcases i3 with i3 | ⟨q, hq, i3⟩
      · rw [i3, e]
        split
        · exact Or.inr ⟨p, List.mem_cons_self _ _, rfl⟩
        · exact Or.inl rfl
      · exact Or.inr ⟨q, List.mem_cons_of_mem _ hq, i3⟩

theorem main_success (blake256 : List Byte → List Byte) (client : Client) (sched : Schedule)
    (opts : config) (F : Int → FilterV2) (fuel : Nat) (blockCount : Int) (targetHeight : Nat)
    (T : Int) (hmode : (opts.Hashes && opts.Binary) = false)
    (hcount : client.GetBlockCount = .ok blockCount)
    (htip : ¬ blockCount < int64 opts.TargetHeight)
    (htgt : targetHeight = if opts.TargetHeight = 0 then uint64 blockCount else opts.TargetHeight)
    (hTdef : T = int64 (targetHeight : Int))
    (h0 : 0 ≤ T) (hT : T + 4000 < 2 ^ 63) (hf : ((T + 4000) / 4000).toNat ≤ fuel)
    (hok : ∀ x : Int, 0 ≤ x → x ≤ T → fetchFilter client x = .ok (F x)) :
    ∃ c, main blake256 client sched opts fuel =
      some (finish blake256 opts T
        { writeRun opts (served F 0 (T + 1).toNat) (start opts targetHeight) with calls := c }) := by
  obtain ⟨buf, c, hrun, _⟩ := fetchLoop_ok client sched opts F T fuel (start opts targetHeight)
    h0 hT hf hok
  refine ⟨c, ?_⟩
  unfold main
  simp only [hmode, hcount, htip, if_false, ← htgt, ← hTdef, hrun]
  rfl

theorem daemon_fetch (tip : Int) (F : Int → FilterV2) (x : Int) (h0 : 0 ≤ x) (h1 : x ≤ tip) :
    fetchFilter (daemon tip F) x = .ok (F x) := by
  simp [fetchFilter, daemon, h0, h1, Int.toNat_of_nonneg h0]

theorem served_zero_eq (F : Int → FilterV2) (n : Nat) :
    served F 0 n = (List.range n).map (fun j : Nat => ((j : Int), F j)) := by
  unfold served
  apply List.map_congr_left
  intro j _
  simp

theorem served_consumed (F : Int → FilterV2) (n : Nat) (hn : (n : Int) ≤ 2 ^ 63) :
    (served F 0 n).map (fun p => (int64 p.1, p.2)) =
      (List.range n).map (fun j : Nat => ((j : Int), F j)) := by
  rw [served_zero_eq, List.map_map]
  apply List.map_congr_left
  intro j hj
  have := List.mem_range.mp hj
  simp only [Function.comp]
  rw [int64_eq_self (by omega) (by omega)]

theorem uint16_length (n : Nat) (h : n ≤ 65535) : uint16 (n : Int) = n := by
  unfold uint16; omega

theorem PutUint16_decode (n : Nat) (h : n ≤ 65535) :
    (UInt8.ofNat (n / 256)).toNat * 256 + (UInt8.ofNat n).toNat = n := by
  show (n / 256) % 256 * 256 + n % 256 = n
  omega

theorem specDecode_records : ∀ (ps : List (List Byte)), (∀ p ∈ ps, p.length ≤ 65535) →
    specDecode ((ps.map (fun p => PutUint16 (uint16 (p.length : Int)) ++ p)).flatten) = some ps := by
  intro ps
  induction ps with
  | nil => intro _; simp [specDecode]
  | cons p rest ih =>
    intro hlen
    have hp : p.length ≤ 65535 := hlen p (List.mem_cons_self _ _)
    have ih' := ih (fun q hq => hlen q (List.mem_cons_of_mem _ hq))
    simp only [PutUint16, List.cons_append, List.nil_append] at ih'
    simp only [List.map_cons, List.flatten_cons, PutUint16, List.cons_append, List.nil_append,
      List.append_assoc, uint16_length p.length hp]
    rw [specDecode]
    simp only [PutUint16_decode p.length hp, List.length_append]
    rw [if_neg (by omega), List.take_left, List.drop_left, ih']
    rfl

theorem record_binary (opts : config) (hbin : opts.Binary = true) (hhash : opts.Hashes = false)
    (cf : FilterV2) :
    record opts cf = PutUint16 (uint16 (cf.Bytes.length : Int)) ++ cf.Bytes := by
  simp [record, hbin, hhash]

theorem task_err_source (client : Client) (h : Int) (i : Nat) (cf : List (Option FilterV2))
    (calls : List RpcCall) (e : String) (he : (task client h i cf calls).2.2 = some e) :
    fetchFilter client (int64 (h + i)) = .error e := by
  unfold task at he
  unfold fetchFilter
  split at he
  · rename_i err herr
    simp only [Option.some.injEq] at he
    rw [he]
  · rename_i bh hbh
    split at he
    · rename_i err herr
      simp only [Option.some.injEq] at he
      rw [herr, he]
    · cases he

theorem foldl_complete_err_source (client : Client) (h : Int) : ∀ (order : List Nat)
    (acc : List (Option FilterV2) × List RpcCall × Option String) (e : String),
    (order.foldl (complete client h) acc).2.2 = some e →
    acc.2.2 = some e ∨ ∃ i ∈ order, fetchFilter client (int64 (h + i)) = .error e := by
  intro order
  induction order with
  | nil => intro acc e he; exact Or.inl he
  | cons i rest ih =>
    intro acc e he
    rw [List.foldl_cons] at he
    rcases ih _ e he with h1 | ⟨j, hj, h2⟩
    · simp only [complete] at h1
      split at h1
      · exact Or.inl h1
      · exact Or.inr ⟨i, List.mem_cons_self _ _, task_err_source client h i _ _ e h1⟩
    · exact Or.inr ⟨j, List.mem_cons_of_mem _ hj, h2⟩

theorem window_err_source (client : Client) (sched : Schedule) (opts : config) (h step : Int)
    (cf : List (Option FilterV2)) (s : State) (err : String) (s1 : State)
    (hw : window client sched opts h step cf s = .error (.fatal err, s1)) :
    ∃ i : Nat, i < step.toNat ∧ fetchFilter client (int64 (h + i)) = .error err := by
  cases he : (errgroup client h (sched h step.toNat).1 cf s.calls).2.2 with
  | some e =>
    simp only [window, he, Except.error.injEq, Prod.mk.injEq, Halt.fatal.injEq] at hw
    rw [hw.1] at he
    rcases foldl_complete_err_source client h _ (cf, s.calls, none) err he with h1 | ⟨i, hi, h2⟩
    · cases h1
    · exact ⟨i, List.mem_range.mp (((sched h step.toNat).2.mem_iff).mp hi), h2⟩
  | none =>
    simp only [window, he] at hw
    exfalso
    revert hw
    generalize (errgroup client h (sched h step.toNat).1 cf s.calls).1 = buf
    generalize ({ s with calls := (errgroup client h (sched h step.toNat).1 cf s.calls).2.1 }
      : State) = st
    intro hw
    have key : ∀ (l : List (Option FilterV2)) (i : Nat) (st st1 : State) (e : String),
        writeFilters opts h i l st ≠ .error (.fatal e, st1) := by
      intro l
      induction l with
      | nil => intro i st st1 e hh; simp [writeFilters] at hh
      | cons a rest ih =>
        intro i st st1 e hh
        cases a with
        | none => simp [writeFilters] at hh
        | some cf1 =>
          rw [writeFilters] at hh
          exact ih _ _ _ _ hh
    cases hwf : writeFilters opts h 0 buf st with
    | error e1 =>
      rw [hwf] at hw
      simp only [Except.error.injEq] at hw
      rw [hw] at hwf
      exact key _ _ _ _ _ hwf
    | ok s2 =>
      rw [hwf] at hw
      cases hw

theorem window_height_bounds (T : Int) (k m : Nat) (hk : 4000 * (k : Int) ≤ T)
    (hT : T + 4000 < 2 ^ 63)
    (hm : m < (min 4000 (T - (0 + 4000 * (k : Int)) + 1)).toNat) :
    -2 ^ 63 ≤ 0 + 4000 * (k : Int) + (m : Int) ∧ 0 + 4000 * (k : Int) + (m : Int) < 2 ^ 63 ∧
    0 ≤ 0 + 4000 * (k : Int) + (m : Int) ∧
    4000 * (k : Int) ≤ 0 + 4000 * (k : Int) + (m : Int) ∧
    0 + 4000 * (k : Int) + (m : Int) < 4000 * (k : Int) + 4000 ∧
    0 + 4000 * (k : Int) + (m : Int) ≤ T := by
  omega

theorem prefix_height_bounds (T : Int) (k : Nat) (y : Int) (hk : 4000 * (k : Int) ≤ T)
    (hy : y < 0 + min (4000 * (k : Int)) (T + 1 - 0)) :
    y < 4000 * (k : Int) + 4000 ∧ y ≤ T := by
  omega

theorem finish_progress (blake256 : List Byte → List Byte) (opts : config) (T : Int)
    (s3 : State) (hp : opts.Progress = true) (hT : T ≠ 0) :
    ∃ s, finish blake256 opts T s3 = .ok s ∧ s.hasher = s3.hasher ∧
      s.totalCFilterSize = s3.totalCFilterSize ∧ s.maxCFilterSize = s3.maxCFilterSize ∧
      s.consumed = s3.consumed ∧
      s.log = s3.log ++ [.hashOfRawData (blake256 s3.hasher), .totalSize s3.totalCFilterSize,
        .avgSize (int64 (Int.tdiv s3.totalCFilterSize T)), .maxSize s3.maxCFilterSize] := by
  cases hh : opts.Hashes <;> simp [finish, report, hp, hT, hh]

theorem finish_progress_zero (blake256 : List Byte → List Byte) (opts : config) (s3 : State)
    (hp : opts.Progress = true) :
    ∃ s, finish blake256 opts 0 s3 = .error (.panic "integer divide by zero", s) ∧
      s.consumed = s3.consumed ∧ s.hasher = s3.hasher := by
  cases hh : opts.Hashes <;> simp [finish, report, hp, hh]

theorem finish_quiet (blake256 : List Byte → List Byte) (opts : config) (T : Int)
    (s3 : State) (hp : opts.Progress = false) (hh : opts.Hashes = false) :
    finish blake256 opts T s3 = .ok { s3 with calls := s3.calls ++ [.Shutdown] } := by
  simp [finish, hp, hh]

theorem writeRun_log (opts : config) : ∀ (l : List (Int × FilterV2)) (s : State),
    ∀ line ∈ (writeRun opts l s).log, line ∈ s.log ∨ ∃ h, line = .generated h := by
  intro l
  induction l with
  | nil => intro s line hl; exact Or.inl hl
  | cons p rest ih =>
    intro s line hl
    simp only [writeRun, List.foldl_cons] at ih hl
    rcases ih _ line hl with h1 | h1
    · simp only [writeFilter] at h1
      split at h1
      · rcases List.mem_append.mp h1 with h2 | h2
        · exact Or.inl h2
        · exact Or.inr ⟨_, List.mem_singleton.mp h2⟩
      · exact Or.inl h1
    · exact Or.inr h1

theorem start_log (opts : config) (th : Nat) :
    ∀ line ∈ (start opts th).log, ∃ n, line = .generating th n := by
  intro line hl
  cases hp : opts.Progress <;> cases hh : opts.Hashes <;>
    simp [start, State.init, hp, hh] at hl
  all_goals exact ⟨_, hl⟩

theorem start_fields (opts : config) (th : Nat) :
    (start opts th).hasher = [] ∧ (start opts th).totalCFilterSize = 0 ∧
    (start opts th).maxCFilterSize = 0 ∧ (start opts th).consumed = [] := by
  cases hp : opts.Progress <;> cases hh : opts.Hashes <;> simp [start, State.init, hp, hh]

theorem start_out (opts : config) (th : Nat) (hh : opts.Hashes = false) :
    (start opts th).out = [] := by
  cases hp : opts.Progress <;> simp [start, State.init, hp, hh]

theorem main_panics_at_target_zero (blake256 : List Byte → List Byte) (client : Client)
    (sched : Schedule) (opts : config) (f : FilterV2) (fuel : Nat)
    (hmode : (opts.Hashes && opts.Binary) = false) (hprog : opts.Progress = true)
    (htarget : opts.TargetHeight = 0) (hcount : client.GetBlockCount = .ok 0)
    (hf : 1 ≤ fuel) (hok : fetchFilter client 0 = .ok f) :
    ∃ s, main blake256 client sched opts fuel =
        some (.error (.panic "integer divide by zero", s)) ∧
      s.consumed = [(0, f)] := by
  obtain ⟨c, hmain⟩ := main_success blake256 client sched opts (fun _ => f) fuel 0 0 0 hmode
    hcount (by rw [htarget]; decide) (by rw [htarget]; decide) (by decide) (le_refl 0)
    (by decide) (by simpa using hf)
    (fun x hx0 hx1 => by
      have : x = 0 := by omega
      rw [this]; exact hok)
  obtain ⟨s, hs, hcons, _⟩ := finish_progress_zero blake256 opts
    { writeRun opts (served (fun _ => f) 0 ((0 : Int) + 1).toNat) (start opts 0) with calls := c }
    hprog
  refine ⟨s, by rw [hmain, hs], ?_⟩
  rw [hcons]
  show (writeRun opts (served (fun _ => f) 0 ((0 : Int) + 1).toNat) (start opts 0)).consumed = _
  rw [writeRun_consumed, (start_fields opts 0).2.2.2]
  have e1 : ((0 : Int) + 1).toNat = 1 := by decide
  have e2 : List.range 1 = [0] := rfl
  have e3 : int64 (0 + ((0 : Nat) : Int)) = 0 := by decide
  rw [e1]
  simp only [served, e2, List.map_cons, List.map_nil, List.nil_append, e3]

theorem main_binary_prefix_lossy (blake256 : List Byte → List Byte) (sched : Schedule)
    (P : List Byte) (hP : 65535 < P.length) :
    ∃ s, main blake256 (daemon 0 (fun _ => ⟨P, ""⟩)) sched ⟨0, false, false, false, true⟩ 1 =
        some (.ok s) ∧
      s.out = PutUint16 (P.length % 65536) ++ P ∧
      specDecode s.out ≠ some [P] := by
  obtain ⟨c, hmain⟩ := main_success blake256 (daemon 0 (fun _ => ⟨P, ""⟩)) sched
    ⟨0, false, false, false, true⟩ (fun _ => ⟨P, ""⟩) 1 0 0 0 rfl rfl (by decide) (by decide)
    (by decide) (le_refl 0) (by decide) (by decide)
    (fun x hx0 hx1 => daemon_fetch 0 _ x hx0 hx1)
  rw [finish_quiet blake256 _ _ _ rfl rfl] at hmain
  have hu : uint16 (P.length : Int) = P.length % 65536 := by unfold uint16; omega
  have hout : (writeRun ⟨0, false, false, false, true⟩
      (served (fun _ => (⟨P, ""⟩ : FilterV2)) 0 ((0 : Int) + 1).toNat)
      (start ⟨0, false, false, false, true⟩ 0)).out = PutUint16 (P.length % 65536) ++ P := by
    rw [writeRun_out, start_out _ _ rfl, List.nil_append]
    have e1 : ((0 : Int) + 1).toNat = 1 := by decide
    have e2 : List.range 1 = [0] := rfl
    rw [e1]
    simp only [served, e2, List.map_cons, List.map_nil, List.flatten_cons,
      List.flatten_nil, List.append_nil]
    rw [record_binary _ rfl rfl, hu]
  refine ⟨_, hmain, hout, ?_⟩
  show specDecode (writeRun _ _ _).out ≠ _
  rw [hout]
  simp only [PutUint16, List.cons_append, List.nil_append]
  rw [specDecode]
  have hn : (UInt8.ofNat (P.length % 65536 / 256)).toNat * 256
      + (UInt8.ofNat (P.length % 65536)).toNat = P.length % 65536 :=
    PutUint16_decode _ (by omega)
  simp only [hn]
  rw [if_neg (by omega)]
  intro h
  obtain ⟨a, _, ha⟩ := Option.map_eq_some'.mp h
  have hlen := congrArg List.length (List.cons.inj ha).1
  rw [List.length_take] at hlen
  omega

theorem main_fatal_when_target_above_tip (blake256 : List Byte → List Byte) (client : Client)
    (sched : Schedule) (opts : config) (fuel : Nat) (blockCount : Int)
    (hmode : (opts.Hashes && opts.Binary) = false)
    (hcount : client.GetBlockCount = .ok blockCount)
    (hrange : opts.TargetHeight < 2 ^ 63) (habove : blockCount < (opts.TargetHeight : Int)) :
    main blake256 client sched opts fuel =
      some (.error (.fatalTarget opts.TargetHeight blockCount,
        { State.init with calls := [.GetBlockCount] })) := by
  have e : int64 (opts.TargetHeight : Int) = opts.TargetHeight :=
    int64_eq_self (by omega) (by exact_mod_cast hrange)
  unfold main
  simp only [hmode, hcount, e, habove, if_true]
  rfl

theorem main_reports_total_over_target (blake256 : List Byte → List Byte) (client : Client)
    (sched : Schedule) (opts : config) (F : Int → FilterV2) (fuel : Nat) (blockCount : Int)
    (targetHeight : Nat) (T : Int) (hmode : (opts.Hashes && opts.Binary) = false)
    (hcount : client.GetBlockCount = .ok blockCount)
    (htip : ¬ blockCount < int64 opts.TargetHeight)
    (htgt : targetHeight = if opts.TargetHeight = 0 then uint64 blockCount else opts.TargetHeight)
    (hTdef : T = int64 (targetHeight : Int))
    (hpos : 0 < T) (hT : T + 4000 < 2 ^ 63) (hf : ((T + 4000) / 4000).toNat ≤ fuel)
    (hok : ∀ x : Int, 0 ≤ x → x ≤ T → fetchFilter client x = .ok (F x))
    (hprog : opts.Progress = true) :
    ∃ s, main blake256 client sched opts fuel = some (.ok s) ∧
      s.consumed.length = (T + 1).toNat ∧
      LogLine.avgSize (int64 (Int.tdiv s.totalCFilterSize T)) ∈ s.log := by
  obtain ⟨c, hmain⟩ := main_success blake256 client sched opts F fuel blockCount targetHeight T
    hmode hcount htip htgt hTdef (le_of_lt hpos) hT hf hok
  obtain ⟨s, hs, _, htot, _, hcons, hlog⟩ := finish_progress blake256 opts T
    { writeRun opts (served F 0 (T + 1).toNat) (start opts targetHeight) with calls := c }
    hprog (ne_of_gt hpos)
  refine ⟨s, by rw [hmain, hs], ?_, ?_⟩
  · rw [hcons]
    show (writeRun opts (served F 0 (T + 1).toNat) (start opts targetHeight)).consumed.length = _
    rw [writeRun_consumed, (start_fields opts targetHeight).2.2.2]
    simp [served]
  · rw [hlog, htot]
    simp

theorem sum_lengths_le (F : Int → FilterV2) (B n : Nat)
    (hB : ∀ j : Nat, (F j).Bytes.length ≤ B) :
    ((List.range n).map (fun j : Nat => ((F j).Bytes.length : Int))).sum ≤ (B : Int) * n := by
  induction n with
  | zero => simp
  | succ n ih =>
    rw [List.range_succ, List.map_append, List.sum_append]
    simp only [List.map_cons, List.map_nil, List.sum_cons, List.sum_nil, add_zero]
    have := hB n
    push_cast
    nlinarith

theorem main_skips_loop_when_target_wraps (blake256 : List Byte → List Byte) (client : Client)
    (sched : Schedule) (opts : config) (fuel : Nat) (blockCount : Int)
    (hmode : (opts.Hashes && opts.Binary) = false)
    (hcount : client.GetBlockCount = .ok blockCount) (hcnt : 0 ≤ blockCount)
    (hlo : 2 ^ 63 ≤ opts.TargetHeight) (hhi : opts.TargetHeight < 2 ^ 64) :
    main blake256 client sched opts fuel =
      some (finish blake256 opts ((opts.TargetHeight : Int) - 2 ^ 64)
        (start opts opts.TargetHeight)) := by
  have e : int64 (opts.TargetHeight : Int) = (opts.TargetHeight : Int) - 2 ^ 64 := by
    unfold int64
    have h1 : (2 : Int) ^ 63 ≤ (opts.TargetHeight : Int) := by exact_mod_cast hlo
    have h2 : (opts.TargetHeight : Int) < 2 ^ 64 := by exact_mod_cast hhi
    omega
  have hne : ¬ opts.TargetHeight = 0 := by
    intro h0
    rw [h0] at hlo
    exact absurd hlo (by decide)
  have hneg : (opts.TargetHeight : Int) - 2 ^ 64 < 0 := by
    have h2 : (opts.TargetHeight : Int) < 2 ^ 64 := by exact_mod_cast hhi
    omega
  have hcmp : ¬ blockCount < (opts.TargetHeight : Int) - 2 ^ 64 := by omega
  unfold main
  simp only [hmode, hcount, e, hcmp, hne, if_false]
  unfold fetchLoop
  rw [batchLoop_done _ _ _ _ _ _ _ hneg]
  rfl

/-! ### The claims -/

/-- C2: when every fetch of the heights `0..T` succeeds, then for every two
completion orders of the tasks the writer consumes exactly the filters of the
heights `0, 1, ..., T`, each once, in strictly increasing height order; in each
window the error group leaves in slot `i` the filter of height `h+i`; the
resulting state differs between the two orders at most in the call trace; and
what the writer emits is in that height order: standard output grows by the
records of the filters of heights `0, ..., T` one after the other (the hash
text in hashes mode, the 2-byte length and the payload in binary mode), and
the hasher is fed their payloads one after the other. -/
theorem fetchLoop_consumes_in_height_order (client : Client) (sched sched' : Schedule)
    (opts : config) (F : Int → FilterV2) (T : Int) (fuel : Nat) (s : State)
    (h0 : 0 ≤ T) (hT : T + 4000 < 2 ^ 63) (hf : ((T + 4000) / 4000).toNat ≤ fuel)
    (hok : ∀ x : Int, 0 ≤ x → x ≤ T → fetchFilter client x = .ok (F x)) :
    ∃ buf s1 buf' s1',
      fetchLoop client sched opts T fuel s = some (.ok (buf, s1)) ∧
      fetchLoop client sched' opts T fuel s = some (.ok (buf', s1')) ∧
      s1.consumed = s.consumed ++ (List.range (T + 1).toNat).map (fun j : Nat => ((j : Int), F j)) ∧
      ((List.range (T + 1).toNat).map (fun j : Nat => ((j : Int), F j))).Pairwise
        (fun a b => a.1 < b.1) ∧
      (∀ (k : Nat) (cf : List (Option FilterV2)) (calls : List RpcCall),
        4000 * (k : Int) ≤ T → cf.length = (min 4000 (T + 1 - 4000 * (k : Int))).toNat →
        (errgroup client (4000 * (k : Int))
          (sched (4000 * (k : Int)) (min 4000 (T + 1 - 4000 * (k : Int))).toNat).1 cf calls).1 =
          (List.range (min 4000 (T + 1 - 4000 * (k : Int))).toNat).map
            (fun i : Nat => some (F (4000 * (k : Int) + (i : Int))))) ∧
      s1' = { s1 with calls := s1'.calls } ∧
      s1.out = s.out ++ ((List.range (T + 1).toNat).map (fun j : Nat =>
        (if opts.Hashes then (F j).Hash.toUTF8.toList else []) ++
          (if opts.Binary then
            PutUint16 (uint16 ((F j).Bytes.length : Int)) ++ (F j).Bytes else []))).flatten ∧
      s1.hasher = s.hasher ++
        ((List.range (T + 1).toNat).map (fun j : Nat => (F j).Bytes)).flatten ∧
      s1'.out = s1.out ∧ s1'.hasher = s1.hasher := by
  obtain ⟨buf, c, hrun, _⟩ := fetchLoop_ok client sched opts F T fuel s h0 hT hf hok
  obtain ⟨buf', c', hrun', _⟩ := fetchLoop_ok client sched' opts F T fuel s h0 hT hf hok
  refine ⟨buf, _, buf', _, hrun, hrun', ?_, ?_, ?_, rfl, ?_, ?_, rfl, rfl⟩
  · show (writeRun opts (served F 0 (T + 1).toNat) s).consumed = _
    rw [writeRun_consumed, served_consumed F _ (by omega)]
  · rw [List.pairwise_map]
    exact (List.pairwise_lt_range _).imp (fun {a b} h => by
      show (a : Int) < (b : Int)
      exact_mod_cast h)
  · intro k cf calls hk hcf
    exact (errgroup_ok client (4000 * (k : Int)) (fun i : Nat => F (4000 * (k : Int) + (i : Int)))
      _ _ (sched _ _).2 cf calls hcf
      (fun i hi => by
        rw [int64_eq_self (by omega) (by omega)]
        exact hok _ (by omega) (by omega))).1
  · show (writeRun opts (served F 0 (T + 1).toNat) s).out = _
    rw [writeRun_out, served_zero_eq, List.map_map]
    rfl
  · show (writeRun opts (served F 0 (T + 1).toNat) s).hasher = _
    rw [writeRun_hasher, served_zero_eq, List.map_map]
    rfl

/-- C2 at a concrete run: target height 4000 (two windows) against the sample
daemon, tasks completing in launch order and in reverse order. -/
theorem fetchLoop_consumes_in_height_order_witness :
    ∃ buf s1 buf' s1',
      fetchLoop (daemon 4000 sampleFilter) Schedule.inOrder ⟨0, false, false, false, true⟩
        4000 2 State.init = some (.ok (buf, s1)) ∧
      fetchLoop (daemon 4000 sampleFilter) Schedule.reversed ⟨0, false, false, false, true⟩
        4000 2 State.init = some (.ok (buf', s1')) ∧
      s1.consumed = (List.range 4001).map (fun j : Nat => ((j : Int), sampleFilter j)) ∧
      s1' = { s1 with calls := s1'.calls } ∧
      s1.out = ((List.range 4001).map (fun j : Nat =>
        PutUint16 (uint16 ((sampleFilter j).Bytes.length : Int)) ++
          (sampleFilter j).Bytes)).flatten ∧
      s1.hasher = ((List.range 4001).map (fun j : Nat => (sampleFilter j).Bytes)).flatten ∧
      s1'.out = s1.out ∧ s1'.hasher = s1.hasher := by
  obtain ⟨buf, s1, buf', s1', e1, e2, e3, _, _, e4, e5, e6, e7, e8⟩ :=
    fetchLoop_consumes_in_height_order (daemon 4000 sampleFilter) Schedule.inOrder
      Schedule.reversed ⟨0, false, false, false, true⟩ sampleFilter 4000 2 State.init
      (by decide) (by decide) (by decide) (fun x hx0 hx1 => daemon_fetch 4000 sampleFilter x hx0 hx1)
  have hn : ((4000 : Int) + 1).toNat = 4001 := by decide
  rw [hn] at e3
  simp only [State.init, List.nil_append] at e3
  refine ⟨buf, s1, buf', s1', e1, e2, e3, e4, ?_, ?_, e7, e8⟩
  · rw [e5, hn]
    refine (List.nil_append _).trans ?_
    apply congrArg List.flatten
    apply List.map_congr_left
    intro j _
    rfl
  · rw [e6, hn]
    exact List.nil_append _

/-- C10: in a successful run to `T ≥ 0`, whatever the mode flags, the final
running total is the sum of the payload lengths of the heights `0..T`, each
counted once (the sum being an `int64`), and the final running maximum is the
largest of those lengths: no payload is longer and some payload has that
length. -/
theorem fetchLoop_total_and_max (client : Client) (sched : Schedule) (opts : config)
    (F : Int → FilterV2) (T : Int) (fuel : Nat) (s : State)
    (h0 : 0 ≤ T) (hT : T + 4000 < 2 ^ 63) (hf : ((T + 4000) / 4000).toNat ≤ fuel)
    (hok : ∀ x : Int, 0 ≤ x → x ≤ T → fetchFilter client x = .ok (F x))
    (hs0 : s.totalCFilterSize = 0) (hs1 : s.maxCFilterSize = 0)
    (hsum : ((List.range (T + 1).toNat).map (fun j : Nat => ((F j).Bytes.length : Int))).sum
      < 2 ^ 63) :
    ∃ buf s1,
      fetchLoop client sched opts T fuel s = some (.ok (buf, s1)) ∧
      s1.totalCFilterSize =
        ((List.range (T + 1).toNat).map (fun j : Nat => ((F j).Bytes.length : Int))).sum ∧
      (∀ x : Int, 0 ≤ x → x ≤ T → ((F x).Bytes.length : Int) ≤ s1.maxCFilterSize) ∧
      (∃ x : Int, 0 ≤ x ∧ x ≤ T ∧ s1.maxCFilterSize = ((F x).Bytes.length : Int)) := by
  obtain ⟨buf, c, hrun, _⟩ := fetchLoop_ok client sched opts F T fuel s h0 hT hf hok
  have hmap : (served F 0 (T + 1).toNat).map (fun p => (p.2.Bytes.length : Int))
      = (List.range (T + 1).toNat).map (fun j : Nat => ((F j).Bytes.length : Int)) := by
    rw [served_zero_eq, List.map_map]; rfl
  have hmem : ∀ x : Int, 0 ≤ x → x ≤ T → (x, F x) ∈ served F 0 (T + 1).toNat := by
    intro x hx0 hx1
    rw [served_zero_eq]
    refine List.mem_map.mpr ⟨x.toNat, List.mem_range.mpr (by omega), ?_⟩
    rw [Int.toNat_of_nonneg hx0]
  obtain ⟨m1, m2, m3⟩ := writeRun_max opts (served F 0 (T + 1).toNat) s
  refine ⟨buf, _, hrun, ?_, ?_, ?_⟩
  · show (writeRun opts (served F 0 (T + 1).toNat) s).totalCFilterSize = _
    rw [writeRun_total opts _ s (by omega) (by rw [hmap, hs0]; omega), hmap, hs0, zero_add]
  · intro x hx0 hx1
    exact m2 (x, F x) (hmem x hx0 hx1)
  · show ∃ x : Int, 0 ≤ x ∧ x ≤ T ∧
      (writeRun opts (served F 0 (T + 1).toNat) s).maxCFilterSize = ((F x).Bytes.length : Int)
    rcases m3 with m3 | ⟨p, hp, m3⟩
    · refine ⟨0, le_refl 0, h0, ?_⟩
      have hle := m2 (0, F 0) (hmem 0 (le_refl 0) h0)
      have hnn : 0 ≤ ((F 0).Bytes.length : Int) := Int.ofNat_nonneg _
      simp only at hle
      omega
    · rw [served_zero_eq] at hp
      obtain ⟨j, hj, rfl⟩ := List.mem_map.mp hp
      exact ⟨(j : Int), by omega, by have := List.mem_range.mp hj; omega, m3⟩

/-- C10 at a concrete run: target height 4000 (a full window and a window
of one height) against the sample daemon, in binary mode. -/
theorem fetchLoop_total_and_max_witness :
    ∃ buf s1,
      fetchLoop (daemon 4000 sampleFilter) Schedule.reversed ⟨0, false, false, false, true⟩
        4000 2 State.init = some (.ok (buf, s1)) ∧
      s1.totalCFilterSize =
        ((List.range 4001).map (fun j : Nat => ((sampleFilter j).Bytes.length : Int))).sum ∧
      s1.maxCFilterSize = 4 := by
  have hlen : ∀ x : Int, (sampleFilter x).Bytes.length = x.toNat % 5 := by
    intro x
    simp only [sampleFilter, List.length_replicate]
  have hn : ((4000 : Int) + 1).toNat = 4001 := by decide
  obtain ⟨buf, s1, e1, e2, e3, x, hx0, hx1, e4⟩ :=
    fetchLoop_total_and_max (daemon 4000 sampleFilter) Schedule.reversed
      ⟨0, false, false, false, true⟩ sampleFilter 4000 2 State.init
      (by decide) (by decide) (by decide) (fun x hx0 hx1 => daemon_fetch 4000 sampleFilter x hx0 hx1)
      rfl rfl
      (by
        have hb := sum_lengths_le sampleFilter 4 ((4000 : Int) + 1).toNat
          (fun j => by rw [hlen]; omega)
        rw [hn] at hb ⊢
        have h4 : ((4 : Nat) : Int) * ((4001 : Nat) : Int) < 2 ^ 63 := by decide
        omega)
  rw [hn] at e2
  refine ⟨buf, s1, e1, e2, ?_⟩
  have h4 := e3 4 (by decide) (by decide)
  rw [hlen] at h4
  rw [e4, hlen] at h4 ⊢
  have h5 : ((4 : Int).toNat % 5 : Nat) = 4 := by decide
  rw [h5] at h4
  omega

/-- C3: in binary mode, when every payload of the heights `0..T` has at most
65535 bytes, the bytes a successful run writes to standard output, read back
as records of a 2-byte big-endian length followed by that many bytes, are
exactly the payloads of the heights `0, ..., T` in height order. -/
theorem binary_output_round_trip (client : Client) (sched : Schedule) (opts : config)
    (F : Int → FilterV2) (T : Int) (fuel : Nat) (s : State)
    (h0 : 0 ≤ T) (hT : T + 4000 < 2 ^ 63) (hf : ((T + 4000) / 4000).toNat ≤ fuel)
    (hok : ∀ x : Int, 0 ≤ x → x ≤ T → fetchFilter client x = .ok (F x))
    (hbin : opts.Binary = true) (hhash : opts.Hashes = false) (hout : s.out = [])
    (hlen : ∀ x : Int, 0 ≤ x → x ≤ T → (F x).Bytes.length ≤ 65535) :
    ∃ buf s1,
      fetchLoop client sched opts T fuel s = some (.ok (buf, s1)) ∧
      s1.out = ((List.range (T + 1).toNat).map (fun j : Nat =>
        PutUint16 (uint16 ((F j).Bytes.length : Int)) ++ (F j).Bytes)).flatten ∧
      specDecode s1.out = some ((List.range (T + 1).toNat).map (fun j : Nat => (F j).Bytes)) := by
  obtain ⟨buf, c, hrun, _⟩ := fetchLoop_ok client sched opts F T fuel s h0 hT hf hok
  have hout1 : (writeRun opts (served F 0 (T + 1).toNat) s).out =
      (((List.range (T + 1).toNat).map (fun j : Nat => (F j).Bytes)).map
        (fun p => PutUint16 (uint16 (p.length : Int)) ++ p)).flatten := by
    rw [writeRun_out, hout, List.nil_append, served_zero_eq, List.map_map, List.map_map]
    congr 1
    apply List.map_congr_left
    intro j _
    simp only [Function.comp]
    exact record_binary opts hbin hhash (F j)
  refine ⟨buf, _, hrun, ?_, ?_⟩
  · show (writeRun opts (served F 0 (T + 1).toNat) s).out = _
    rw [hout1, List.map_map]
    rfl
  · show specDecode (writeRun opts (served F 0 (T + 1).toNat) s).out = _
    rw [hout1]
    apply specDecode_records
    intro p hp
    obtain ⟨j, hj, rfl⟩ := List.mem_map.mp hp
    have := List.mem_range.mp hj
    exact hlen j (by omega) (by omega)

/-- C3 at a concrete run: target height 4000 against the sample daemon. -/
theorem binary_output_round_trip_witness :
    ∃ buf s1,
      fetchLoop (daemon 4000 sampleFilter) Schedule.reversed ⟨0, false, false, false, true⟩
        4000 2 State.init = some (.ok (buf, s1)) ∧
      specDecode s1.out = some ((List.range 4001).map (fun j : Nat => (sampleFilter j).Bytes)) := by
  obtain ⟨buf, s1, e1, _, e3⟩ :=
    binary_output_round_trip (daemon 4000 sampleFilter) Schedule.reversed
      ⟨0, false, false, false, true⟩ sampleFilter 4000 2 State.init
      (by decide) (by decide) (by decide) (fun x hx0 hx1 => daemon_fetch 4000 sampleFilter x hx0 hx1)
      rfl rfl rfl
      (fun x _ _ => by
        simp only [sampleFilter, List.length_replicate]
        omega)
  have hn : ((4000 : Int) + 1).toNat = 4001 := by decide
  rw [hn] at e3
  exact ⟨buf, s1, e1, e3⟩

/-- C7: when every fetch below window `k` succeeds and some fetch task of
window `k` fails, the run ends with the fatal error of a failed task of that
window; the state it leaves is the writer's state after the filters of the
heights below `4000*k` and nothing else (so no filter of window `k` or later
was written, hashed or counted); every fetch call made is for a height of the
windows `0..k`; and what is on standard output is a prefix of what any
successful run over the same filters writes. -/
theorem fetchLoop_failure_policy (client : Client) (sched : Schedule) (opts : config)
    (F : Int → FilterV2) (T : Int) (fuel : Nat) (s : State) (k : Nat)
    (h0 : 0 ≤ T) (hT : T + 4000 < 2 ^ 63) (hf : ((T + 4000) / 4000).toNat ≤ fuel)
    (hk : 4000 * (k : Int) ≤ T)
    (hok : ∀ x : Int, 0 ≤ x → x < 4000 * (k : Int) → fetchFilter client x = .ok (F x))
    (hbad : ∃ x : Int, 4000 * (k : Int) ≤ x ∧ x < 4000 * (k : Int) + 4000 ∧ x ≤ T ∧
      ∃ e, fetchFilter client x = .error e) :
    ∃ err s1,
      fetchLoop client sched opts T fuel s = some (.error (.fatal err, s1)) ∧
      (∃ x : Int, 4000 * (k : Int) ≤ x ∧ x < 4000 * (k : Int) + 4000 ∧ x ≤ T ∧
        fetchFilter client x = .error err) ∧
      s1 = { writeRun opts (served F 0 (4000 * k)) s with calls := s1.calls } ∧
      s1.consumed = s.consumed ++ (List.range (4000 * k)).map (fun j : Nat => ((j : Int), F j)) ∧
      s1.out = s.out ++ ((List.range (4000 * k)).map (fun j : Nat => record opts (F j))).flatten ∧
      s1.hasher = s.hasher ++ ((List.range (4000 * k)).map (fun j : Nat => (F j).Bytes)).flatten ∧
      (∀ call ∈ s1.calls, call ∈ s.calls ∨
        ∃ x : Int, 0 ≤ x ∧ x < 4000 * (k : Int) + 4000 ∧ x ≤ T ∧ taskCall client x call) ∧
      (∀ (client' : Client) (sched' : Schedule) (F' : Int → FilterV2),
        (∀ x : Int, 0 ≤ x → x ≤ T → fetchFilter client' x = .ok (F' x)) →
        (∀ x : Int, 0 ≤ x → x < 4000 * (k : Int) → F' x = F x) →
        ∃ buf s2, fetchLoop client' sched' opts T fuel s = some (.ok (buf, s2)) ∧
          s1.out <+: s2.out ∧ s1.consumed <+: s2.consumed ∧ s1.hasher <+: s2.hasher) := by
  have hcnt : windowCount T 0 = ((T + 4000) / 4000).toNat := by unfold windowCount; simp
  have hloop := batchLoop_eq_runWindows (window client sched opts)
    (fun h step cf s r hr => window_length client sched opts h step cf s r hr)
    T hT fuel 0 (List.replicate 4000 none) s (le_refl 0) (by omega) (List.length_replicate _ _)
    (by rw [hcnt]; exact hf)
  obtain ⟨j, hN⟩ : ∃ j : Nat, windowCount T 0 = k + (j + 1) :=
    ⟨windowCount T 0 - k - 1, by rw [hcnt]; omega⟩
  have hm : (min (4000 * (k : Int)) (T + 1 - 0)).toNat = 4000 * k := by omega
  obtain ⟨buf, c1, hrun1, hc1⟩ := runWindows_window_ok client sched opts F T hT k 0
    (List.replicate 4000 none) s (le_refl 0) h0 (by rw [hcnt]; omega) (List.length_replicate _ _)
    (fun x hx1 hx2 => hok x hx1 (by omega))
  rw [hm] at hrun1
  obtain ⟨x, hx1, hx2, hx3, e, he⟩ := hbad
  have hstep : (x - 4000 * (k : Int)).toNat < (min 4000 (T - (0 + 4000 * (k : Int)) + 1)).toNat := by
    omega
  have hxe : int64 (0 + 4000 * (k : Int) + ((x - 4000 * (k : Int)).toNat : Nat)) = x := by
    rw [int64_eq_self (by omega) (by omega)]; omega
  obtain ⟨err, c2, hw, hc2⟩ := window_err client sched opts (0 + 4000 * (k : Int))
    (min 4000 (T - (0 + 4000 * (k : Int)) + 1))
    (buf.take (min 4000 (T - (0 + 4000 * (k : Int)) + 1)).toNat)
    { writeRun opts (served F 0 (4000 * k)) s with calls := c1 }
    ⟨(x - 4000 * (k : Int)).toNat, hstep, e, by rw [hxe]; exact he⟩
  obtain ⟨i, hi, hsrc⟩ := window_err_source client sched opts _ _ _ _ err _ hw
  have hfail : fetchLoop client sched opts T fuel s = some (.error (.fatal err,
      { writeRun opts (served F 0 (4000 * k)) s with calls := c2 })) := by
    unfold fetchLoop
    rw [hloop, hN, windows_add, runWindows_append, hrun1]
    simp only [windows, runWindows, hw]
  refine ⟨err, _, hfail, ?_, rfl, ?_, ?_, ?_, ?_, ?_⟩
  · obtain ⟨b1, b2, _, b4, b5, b6⟩ := window_height_bounds T k i hk hT hi
    rw [int64_eq_self b1 b2] at hsrc
    exact ⟨0 + 4000 * (k : Int) + (i : Int), b4, b5, b6, hsrc⟩
  · show (writeRun opts (served F 0 (4000 * k)) s).consumed = _
    rw [writeRun_consumed, served_consumed F _ (by omega)]
  · show (writeRun opts (served F 0 (4000 * k)) s).out = _
    rw [writeRun_out, served_zero_eq, List.map_map]
    rfl
  · show (writeRun opts (served F 0 (4000 * k)) s).hasher = _
    rw [writeRun_hasher, served_zero_eq, List.map_map]
    rfl
  · intro call hcall
    rcases hc2 call hcall with h1 | ⟨m, hm1, h2⟩
    · rcases hc1 call h1 with h3 | ⟨y, hy1, hy2, h4⟩
      · exact Or.inl h3
      · obtain ⟨b1, b2⟩ := prefix_height_bounds T k y hk hy2
        exact Or.inr ⟨y, hy1, b1, b2, h4⟩
    · obtain ⟨b1, b2, b3, _, b5, b6⟩ := window_height_bounds T k m hk hT hm1
      rw [int64_eq_self b1 b2] at h2
      exact Or.inr ⟨0 + 4000 * (k : Int) + (m : Int), b3, b5, b6, h2⟩
  · intro client' sched' F' hok' hagree
    obtain ⟨buf2, c3, hrun2, _⟩ := fetchLoop_ok client' sched' opts F' T fuel s h0 hT hf hok'
    have hsplit : (T + 1).toNat = 4000 * k + ((T + 1).toNat - 4000 * k) := by omega
    have hpre : served F' 0 (4000 * k) = served F 0 (4000 * k) := by
      unfold served
      apply List.map_congr_left
      intro j hj
      have := List.mem_range.mp hj
      rw [hagree (0 + (j : Int)) (by omega) (by omega)]
    have hrun3 : writeRun opts (served F' 0 (T + 1).toNat) s =
        writeRun opts (served F' (0 + ((4000 * k : Nat) : Int)) ((T + 1).toNat - 4000 * k))
          (writeRun opts (served F 0 (4000 * k)) s) := by
      rw [hsplit, served_add, writeRun_append, hpre, ← hsplit]
    refine ⟨buf2, _, hrun2, ?_, ?_, ?_⟩
    · show (writeRun opts (served F 0 (4000 * k)) s).out
        <+: (writeRun opts (served F' 0 (T + 1).toNat) s).out
      rw [hrun3, writeRun_out opts (served F' _ _)]
      exact List.prefix_append _ _
    · show (writeRun opts (served F 0 (4000 * k)) s).consumed
        <+: (writeRun opts (served F' 0 (T + 1).toNat) s).consumed
      rw [hrun3, writeRun_consumed opts (served F' _ _)]
      exact List.prefix_append _ _
    · show (writeRun opts (served F 0 (4000 * k)) s).hasher
        <+: (writeRun opts (served F' 0 (T + 1).toNat) s).hasher
      rw [hrun3, writeRun_hasher opts (served F' _ _)]
      exact List.prefix_append _ _

/-- C7 at a concrete run: target height 4000, the filter lookup of height 4000
(window 1) failing. -/
theorem fetchLoop_failure_policy_witness :
    ∃ err s1,
      fetchLoop (faulty 4000 sampleFilter 4000) Schedule.reversed
        ⟨0, false, false, false, true⟩ 4000 2 State.init = some (.error (.fatal err, s1)) ∧
      s1.consumed = (List.range 4000).map (fun j : Nat => ((j : Int), sampleFilter j)) ∧
      (∀ call ∈ s1.calls, ∃ x : Int, 0 ≤ x ∧ x ≤ 4000 ∧
        taskCall (faulty 4000 sampleFilter 4000) x call) := by
  obtain ⟨err, s1, e1, _, _, e3, _, _, e5, _⟩ :=
    fetchLoop_failure_policy (faulty 4000 sampleFilter 4000) Schedule.reversed
      ⟨0, false, false, false, true⟩ sampleFilter 4000 2 State.init 1
      (by decide) (by decide) (by decide) (by decide)
      (fun x hx0 hx1 => by
        have h1 : x ≤ 4000 := by omega
        have h2 : ¬ x = 4000 := by omega
        simp [fetchFilter, faulty, hx0, h1, h2, Int.toNat_of_nonneg hx0])
      ⟨4000, by decide, by decide, by decide, "rpc failure", by
        simp [fetchFilter, faulty]⟩
  refine ⟨err, s1, e1, ?_, ?_⟩
  · simp only [State.init, List.nil_append] at e3
    exact e3
  · intro call hcall
    rcases e5 call hcall with h1 | ⟨x, hx0, _, hx2, hx3⟩
    · simp [State.init] at h1
    · exact ⟨x, hx0, hx2, hx3⟩

/-- C4, the code at the failing input: in binary mode a payload of 65536
bytes is written with the length prefix `00 00` and the run ends normally, no
error being flagged; the stream does not decode to the payload. -/
theorem binary_prefix_truncates_at_65536 :
    ∃ s, main (fun _ => []) (daemon 0 (fun _ => ⟨List.replicate 65536 0, ""⟩))
        Schedule.inOrder ⟨0, false, false, false, true⟩ 1 = some (.ok s) ∧
      s.out = [0, 0] ++ List.replicate 65536 0 ∧
      specDecode s.out ≠ some [List.replicate 65536 0] := by
  obtain ⟨s, h1, h2, h3⟩ := main_binary_prefix_lossy (fun _ => []) Schedule.inOrder
    (List.replicate 65536 0) (by rw [List.length_replicate]; decide)
  rw [List.length_replicate] at h2
  have e : PutUint16 (65536 % 65536) = [0, 0] := by decide
  rw [e] at h2
  exact ⟨s, h1, h2, h3⟩

/-- C5, the code at the failing input: with the requested target height
`2^63` and a daemon reporting block count 100, hashes mode, the run is not
stopped: it makes no fetch call, writes the preamble and the closing quote to
standard output and ends normally. -/
theorem target_above_tip_not_fatal :
    (100 : Int) < (9223372036854775808 : Nat) ∧
    main (fun _ => []) (daemon 100 sampleFilter) Schedule.inOrder
        ⟨9223372036854775808, false, false, true, false⟩ 0 =
      some (.ok { State.init with
        out := preamble "mainnet" ++ text "\"\n"
        calls := [.GetBlockCount, .Shutdown] }) := by
  exact ⟨by decide, rfl⟩

/-- C6, the code at the failing input: with progress on, requested target 0
and a daemon reporting block count 0, the run fetches and writes the filter of
height 0 and then panics in the division by the target. -/
theorem average_divides_by_zero_at_target_zero :
    ∃ s, main (fun _ => []) (daemon 0 sampleFilter) Schedule.inOrder
        ⟨0, false, true, false, false⟩ 1 =
        some (.error (.panic "integer divide by zero", s)) ∧
      s.consumed = [(0, sampleFilter 0)] :=
  main_panics_at_target_zero (fun _ => []) (daemon 0 sampleFilter) Schedule.inOrder
    ⟨0, false, true, false, false⟩ (sampleFilter 0) 1 rfl rfl rfl rfl (le_refl 1)
    (daemon_fetch 0 sampleFilter 0 (le_refl 0) (le_refl 0))

/-- C9, the code at the failing input: target height 1 and two filters of 3
bytes each; the run processes 2 filters of 6 bytes in total and reports the
average 6, not 3. -/
theorem average_divides_by_target_not_count :
    ∃ s, main (fun _ => []) (daemon 1 (fun _ => ⟨[1, 2, 3], ""⟩)) Schedule.inOrder
        ⟨0, false, true, false, false⟩ 1 = some (.ok s) ∧
      s.consumed.length = 2 ∧ s.totalCFilterSize = 6 ∧
      s.log = [.generating 1 "mainnet", .generated 0, .hashOfRawData [], .totalSize 6,
        .avgSize 6, .maxSize 3] :=
  ⟨_, rfl, rfl, rfl, rfl⟩

/-- C8 refuted at a concrete reordering: the payloads `[01]`, `[01 01]` and
their reordering `[01 01]`, `[01]` are different sequences, and for every
digest function the two runs log the same lines, the same hash of the raw data
among them. -/
theorem cumulative_hash_reorder_collision :
    ∃ P Q : List (List Byte), P.Perm Q ∧ P ≠ Q ∧
      ∀ blake256 : List Byte → List Byte, ∃ s1 s2,
        main blake256 (serving P) Schedule.inOrder ⟨0, false, true, false, false⟩ 1 =
          some (.ok s1) ∧
        main blake256 (serving Q) Schedule.inOrder ⟨0, false, true, false, false⟩ 1 =
          some (.ok s2) ∧
        s1.consumed.map (fun p => p.2.Bytes) = P ∧ s2.consumed.map (fun p => p.2.Bytes) = Q ∧
        s1.log = s2.log ∧
        s1.log = [.generating 1 "mainnet", .generated 0, .hashOfRawData (blake256 [1, 1, 1]),
          .totalSize 3, .avgSize 3, .maxSize 2] :=
  ⟨[[1], [1, 1]], [[1, 1], [1]], List.Perm.swap _ _ _, by decide,
    fun _ => ⟨_, _, rfl, rfl, rfl, rfl, rfl, rfl⟩⟩

/-- C8 as amended: in a successful run to `T > 0` with progress on, the bytes
fed to the hasher are the concatenation of the payloads of the heights
`0, ..., T` in height order, and the hash of the raw data the run logs is the
digest of that concatenation and nothing else. -/
theorem reported_hash_is_digest_of_concatenation (blake256 : List Byte → List Byte)
    (client : Client) (sched : Schedule) (opts : config) (F : Int → FilterV2) (fuel : Nat)
    (blockCount : Int) (targetHeight : Nat) (T : Int)
    (hmode : (opts.Hashes && opts.Binary) = false)
    (hcount : client.GetBlockCount = .ok blockCount)
    (htip : ¬ blockCount < int64 opts.TargetHeight)
    (htgt : targetHeight = if opts.TargetHeight = 0 then uint64 blockCount else opts.TargetHeight)
    (hTdef : T = int64 (targetHeight : Int))
    (hpos : 0 < T) (hT : T + 4000 < 2 ^ 63) (hf : ((T + 4000) / 4000).toNat ≤ fuel)
    (hok : ∀ x : Int, 0 ≤ x → x ≤ T → fetchFilter client x = .ok (F x))
    (hprog : opts.Progress = true) :
    ∃ s, main blake256 client sched opts fuel = some (.ok s) ∧
      s.hasher = ((List.range (T + 1).toNat).map (fun j : Nat => (F j).Bytes)).flatten ∧
      ∀ d, LogLine.hashOfRawData d ∈ s.log ↔
        d = blake256 ((List.range (T + 1).toNat).map (fun j : Nat => (F j).Bytes)).flatten := by
  obtain ⟨c, hmain⟩ := main_success blake256 client sched opts F fuel blockCount targetHeight T
    hmode hcount htip htgt hTdef (le_of_lt hpos) hT hf hok
  obtain ⟨s, hs, hhash, _, _, _, hlog⟩ := finish_progress blake256 opts T
    { writeRun opts (served F 0 (T + 1).toNat) (start opts targetHeight) with calls := c }
    hprog (ne_of_gt hpos)
  have hh : (writeRun opts (served F 0 (T + 1).toNat) (start opts targetHeight)).hasher
      = ((List.range (T + 1).toNat).map (fun j : Nat => (F j).Bytes)).flatten := by
    rw [writeRun_hasher, (start_fields opts targetHeight).1, List.nil_append, served_zero_eq,
      List.map_map]
    rfl
  have hh2 : ({ writeRun opts (served F 0 (T + 1).toNat) (start opts targetHeight)
      with calls := c } : State).hasher
      = ((List.range (T + 1).toNat).map (fun j : Nat => (F j).Bytes)).flatten := hh
  refine ⟨s, by rw [hmain, hs], by rw [hhash, hh2], ?_⟩
  intro d
  rw [hlog, hh2]
  constructor
  · intro hd
    rcases List.mem_append.mp hd with h1 | h1
    · exfalso
      rcases writeRun_log opts _ _ _ h1 with h2 | ⟨h, h2⟩
      · obtain ⟨n, h3⟩ := start_log opts targetHeight _ h2
        cases h3
      · cases h2
    · simp only [List.mem_cons, LogLine.hashOfRawData.injEq, reduceCtorEq, List.mem_singleton,
        or_false, List.not_mem_nil] at h1
      exact h1
  · intro hd
    rw [hd]
    exact List.mem_append_right _ (List.mem_cons_self _ _)

/-- C8 as amended, at a concrete run: target height 1 against the sample
daemon, with the identity as digest. -/
theorem reported_hash_is_digest_of_concatenation_witness :
    ∃ s, main (fun bs => bs) (daemon 1 sampleFilter) Schedule.reversed
        ⟨0, false, true, false, false⟩ 1 = some (.ok s) ∧
      s.hasher = [7] ∧ ∀ d, LogLine.hashOfRawData d ∈ s.log ↔ d = [7] := by
  obtain ⟨s, e1, e2, e3⟩ :=
    reported_hash_is_digest_of_concatenation (fun bs => bs) (daemon 1 sampleFilter)
      Schedule.reversed ⟨0, false, true, false, false⟩ sampleFilter 1 1 1 1 rfl rfl
      (by decide) (by decide) (by decide) (by decide) (by decide) (by decide)
      (fun x hx0 hx1 => daemon_fetch 1 sampleFilter x hx0 hx1) rfl
  have e : ((List.range ((1 : Int) + 1).toNat).map (fun j : Nat => (sampleFilter j).Bytes)).flatten
      = [7] := by decide
  rw [e] at e2 e3
  exact ⟨s, e1, e2, e3⟩

end CFilterV2Hashes
